import Mathlib

/-!
Verification of the elsim diff engine (`elsim/dalvik.py`,
`elsim/similarity/__init__.py`) against its natural-language specification.

The Python source is shallowly embedded: pure functions become Lean
functions, dict-based state becomes association lists (insertion order
preserved, keys unique, matching CPython dict semantics), mutation of
object attributes becomes explicit state passing, and code that can raise
becomes `Except`/status-returning functions.  Instruction and block
objects are identified by their ids; similarity scores (Python floats)
are modelled as rationals.
-/

namespace Elsim

/-! ## Instruction differ: `LCS` and `getDiff` (dalvik.py lines 583-610)

Tokens (the `chr(hS[ident])` synthetic characters of `toString`) are
modelled as naturals.  The Python `LCS` builds an `(m+1) × (n+1)` matrix
`C` with zeroed first row and column and
`C[i][j] = C[i-1][j-1] + 1` when `X[i-1] == Y[j-1]`, else
`max(C[i][j-1], C[i-1][j])`; we build the same matrix row by row. -/

/-- One inner iteration block of the `LCS` table loop: given the previous
row starting at column `j-1` and the value `left` already computed for
`C[i][j-1]`, produce the entries `C[i][j..n]` of the current row. -/
def lcsRowAux (xi : Nat) : Nat → List Nat → List Nat → List Nat
  | _, [], _ => []
  | _, _ :: _, [] => []
  | left, y :: ys, pdiag :: prest =>
    let cur := if xi = y then pdiag + 1 else max left (prest.headD 0)
    cur :: lcsRowAux xi cur ys prest

/-- `LCS X Y` — the dynamic-programming table of `LCS(X, Y)`
(dalvik.py lines 583-595), built row by row exactly as the nested
`for` loops fill `C`. -/
def LCS (X Y : List Nat) : List (List Nat) :=
  let row0 : List Nat := List.replicate (Y.length + 1) 0
  (X.foldl
    (fun (st : List (List Nat) × List Nat) xi =>
      let r := 0 :: lcsRowAux xi 0 Y st.2
      (st.1 ++ [r], r))
    ([row0], row0)).1

/-- `C[i][j]` — Python list-of-lists indexing into the LCS table. -/
def tbl (C : List (List Nat)) (i j : Nat) : Nat :=
  (C.getD i []).getD j 0

/-- `getDiff(C, X, Y, i, j, a, r)` (dalvik.py lines 598-610).  The Python
function appends to the caller-owned lists `a` and `r` after the
recursive call; here the two lists are threaded and returned. -/
def getDiff (C : List (List Nat)) (X Y : List Nat) :
    Nat → Nat → List (Nat × Nat) → List (Nat × Nat) →
    List (Nat × Nat) × List (Nat × Nat)
  | i, j, a, r =>
    if 0 < i ∧ 0 < j ∧ X.getD (i-1) 0 = Y.getD (j-1) 0 then
      getDiff C X Y (i-1) (j-1) a r
    else if 0 < j ∧ (i = 0 ∨ tbl C i (j-1) ≥ tbl C (i-1) j) then
      let p := getDiff C X Y i (j-1) a r
      (p.1 ++ [(j-1, Y.getD (j-1) 0)], p.2)
    else if 0 < i ∧ (j = 0 ∨ tbl C i (j-1) < tbl C (i-1) j) then
      let p := getDiff C X Y (i-1) j a r
      (p.1, p.2 ++ [(i-1, X.getD (i-1) 0)])
    else (a, r)
  termination_by i j _ _ => i + j
  decreasing_by all_goals omega

/-! Round-trip application, following the spec's words (§4.5): "applying
`removed` deletions to X then `added` insertions (at their recorded
positions) reconstructs Y exactly". -/

/-- Insertion at an index with Python `list.insert` semantics
(append when the index is past the end). -/
def insertAt : Nat → Nat → List Nat → List Nat
  | _, t, [] => [t]
  | 0, t, l => t :: l
  | p+1, t, x :: xs => x :: insertAt p t xs

/-- Apply the recorded `added` entries in order: each `(pos, tok)` is
inserted at index `pos`. -/
def applyAdds (l : List Nat) (a : List (Nat × Nat)) : List Nat :=
  a.foldl (fun acc pt => insertAt pt.1 pt.2 acc) l

/-- Delete the tokens sitting at the recorded `removed` indices
(`p` is the index of the head of the remaining list). -/
def eraseIdxsFrom (rs : List Nat) : List Nat → Nat → List Nat
  | [], _ => []
  | x :: xs, p =>
    if p ∈ rs then eraseIdxsFrom rs xs (p+1) else x :: eraseIdxsFrom rs xs (p+1)

/-- Apply the recorded `removed` deletions to a token sequence. -/
def applyRemoves (l : List Nat) (rs : List Nat) : List Nat :=
  eraseIdxsFrom rs l 0

/-- In-bounds condition for a sequence of insertions performed on a list
of length `n`: each insertion index is at most the current length. -/
def insOK : Nat → List (Nat × Nat) → Prop
  | _, [] => True
  | n, pt :: rest => pt.1 ≤ n ∧ insOK (n+1) rest

/-! ## Association lists with CPython dict semantics

`dict` values in the source (`off_add`, `off_rm`, `diff_bb`, `dbb`, …)
are modelled as association lists that preserve insertion order and keep
keys unique, exactly as CPython dicts do. -/

/-- `m[k] = v` — replace in place if the key exists, else append. -/
def alSet {κ α : Type} [DecidableEq κ] : List (κ × α) → κ → α → List (κ × α)
  | [], k, v => [(k, v)]
  | (k2, v2) :: rest, k, v =>
    if k2 = k then (k, v) :: rest else (k2, v2) :: alSet rest k v

/-- `m[k]` / `k in m` — dict lookup. -/
def alLookup {κ α : Type} [DecidableEq κ] : List (κ × α) → κ → Option α
  | [], _ => none
  | (k2, v) :: rest, k => if k2 = k then some v else alLookup rest k

/-- `del m[k]` — remove the entry with the given key. -/
def alErase {κ α : Type} [DecidableEq κ] : List (κ × α) → κ → List (κ × α)
  | [], _ => []
  | (k2, v) :: rest, k => if k2 = k then rest else (k2, v) :: alErase rest k

/-- `sorted(m)[-1]` on a non-empty dict — the largest key. -/
def alMaxKey {α : Type} (m : List (Nat × α)) : Nat :=
  (m.map Prod.fst).foldl max 0

/-! ## `DiffBB.diff_ins` (dalvik.py lines 191-248)

An instruction object is identified by a natural-number id.  The entries
of `di.add_ins` / `di.remove_ins` are the triples
`(position, byte offset, instruction)` built by `filter_diff_bb`.  The
`setattr(obj, "diff_tag", t)` calls inject an attribute into the
original, externally-owned instruction objects; the attribute map is
modelled as an explicit store `tags : Nat → Option Nat` (`none` =
attribute absent).  Emissions into `self.ins` are recorded together with
the tag set by the `setattr` performed at the same step. -/

/-- `DIFF_INS_TAG` (dalvik.py lines 171-175). -/
def TAG_ORIG : Nat := 0

/-- `DIFF_INS_TAG["ADD"]`. -/
def TAG_ADD : Nat := 1

/-- `DIFF_INS_TAG["REMOVE"]`. -/
def TAG_REMOVE : Nat := 2

/-- An `add_ins`/`remove_ins` entry: `(position, byte offset, instruction id)`. -/
abbrev InsEntry : Type := Nat × Nat × Nat

/-- Update the attribute store at one object id. -/
def setTag (st : Nat → Option Nat) (i t : Nat) : Nat → Option Nat :=
  fun k => if k = i then some t else st k

/-- State threaded through `diff_ins`: emitted `(instruction, tag)`
records, the two position-keyed dicts, and the attribute store. -/
structure DiffInsState where
  ins : List (Nat × Nat)
  offA : List (Nat × InsEntry)
  offR : List (Nat × InsEntry)
  tags : Nat → Option Nat

/-- `off_add[i[0]] = i` over a list of entries (duplicates overwrite). -/
def buildOff (l : List InsEntry) : List (Nat × InsEntry) :=
  l.foldl (fun m e => alSet m e.1 e) []

/-- One iteration of the first `for i in self.bb1.ins` loop of
`diff_ins`: splice the `off_add` entry at `nb` (tag ADD), then the
`off_rm` entry at `nb` (tag REMOVE, setting `ok`), and emit the original
instruction with tag ORIG only when no REMOVE fired. -/
def diffInsStep (st : DiffInsState) (nb : Nat) (i : Nat) : DiffInsState :=
  let st1 :=
    match alLookup st.offA nb with
    | some e =>
      { st with ins := st.ins ++ [(e.2.2, TAG_ADD)],
                tags := setTag st.tags e.2.2 TAG_ADD,
                offA := alErase st.offA nb }
    | none => st
  match alLookup st1.offR nb with
  | some e =>
    { st1 with ins := st1.ins ++ [(e.2.2, TAG_REMOVE)],
               tags := setTag st1.tags e.2.2 TAG_REMOVE,
               offR := alErase st1.offR nb }
  | none =>
    { st1 with ins := st1.ins ++ [(i, TAG_ORIG)],
               tags := setTag st1.tags i TAG_ORIG }

/-- The first loop of `diff_ins`, walking `self.bb1.ins` with counter `nb`. -/
def diffInsMain : List Nat → Nat → DiffInsState → DiffInsState
  | [], _, st => st
  | i :: rest, nb, st => diffInsMain rest (nb+1) (diffInsStep st nb i)

/-- One iteration of the trailing `while nb <= nbmax` loop (same as
`diffInsStep` but with no original instruction to emit). -/
def diffInsTailStep (st : DiffInsState) (nb : Nat) : DiffInsState :=
  let st1 :=
    match alLookup st.offA nb with
    | some e =>
      { st with ins := st.ins ++ [(e.2.2, TAG_ADD)],
                tags := setTag st.tags e.2.2 TAG_ADD,
                offA := alErase st.offA nb }
    | none => st
  match alLookup st1.offR nb with
  | some e =>
    { st1 with ins := st1.ins ++ [(e.2.2, TAG_REMOVE)],
               tags := setTag st1.tags e.2.2 TAG_REMOVE,
               offR := alErase st1.offR nb }
  | none => st1

/-- The trailing `while nb <= nbmax` loop; it runs exactly
`nbmax + 1 - nb` iterations starting at position `nb`. -/
def diffInsTail : Nat → Nat → DiffInsState → DiffInsState
  | 0, _, st => st
  | fuel+1, nb, st => diffInsTail fuel (nb+1) (diffInsTailStep st nb)

/-- `DiffBB.diff_ins(di)` (dalvik.py lines 191-248): build the two
position-keyed dicts, run the main loop over the source block's
instructions, compute `nbmax` (`nb`, overwritten by the largest
remaining `off_add` key if any, then maxed with the largest remaining
`off_rm` key if any) and run the trailing loop. -/
def diff_ins (bb1ins : List Nat) (add_ins remove_ins : List InsEntry)
    (tags0 : Nat → Option Nat) : DiffInsState :=
  let st0 : DiffInsState :=
    { ins := [], offA := buildOff add_ins, offR := buildOff remove_ins,
      tags := tags0 }
  let st1 := diffInsMain bb1ins 0 st0
  let nb := bb1ins.length
  let nbmax1 := if st1.offA.isEmpty then nb else alMaxKey st1.offA
  let nbmax := if st1.offR.isEmpty then nbmax1 else max nbmax1 (alMaxKey st1.offR)
  diffInsTail (nbmax + 1 - nb) nb st1

/-! Spec-side reconstruction, following the claim's words: walk the
source block's positions in order; at each position first emit any added
entry recorded at that position with tag ADD, then any removed entry
recorded at that position with tag REMOVE, and otherwise emit the
original instruction with tag ORIG; continue past the source sequence's
end while trailing add/remove entries remain. -/

/-- The records emitted at one position: ADD entry, REMOVE entry, and —
when an original instruction is available and no REMOVE fired — the
original with tag ORIG. -/
def specEmit (offA offR : List (Nat × InsEntry)) (p : Nat) (orig : Option Nat) :
    List (Nat × Nat) :=
  (match alLookup offA p with
   | some e => [(e.2.2, TAG_ADD)]
   | none => []) ++
  (match alLookup offR p with
   | some e => [(e.2.2, TAG_REMOVE)]
   | none => []) ++
  (match orig with
   | some i => if (alLookup offR p).isSome then [] else [(i, TAG_ORIG)]
   | none => [])

/-- Walk of the source positions (the part of the reconstruction that
consumes original instructions), returning the emissions and the
leftover entry dicts. -/
def specWalkMain : List Nat → Nat → List (Nat × InsEntry) → List (Nat × InsEntry) →
    List (Nat × Nat) × List (Nat × InsEntry) × List (Nat × InsEntry)
  | [], _, offA, offR => ([], offA, offR)
  | i :: rest, p, offA, offR =>
    let t := specWalkMain rest (p+1) (alErase offA p) (alErase offR p)
    (specEmit offA offR p (some i) ++ t.1, t.2)

/-- Trailing walk: keep visiting positions while add/remove entries
remain, i.e. up to the largest recorded position. -/
def specTailGo : Nat → Nat → List (Nat × InsEntry) → List (Nat × InsEntry) →
    List (Nat × Nat)
  | 0, _, _, _ => []
  | fuel+1, p, offA, offR =>
    specEmit offA offR p none ++
      specTailGo fuel (p+1) (alErase offA p) (alErase offR p)

/-- The reconstruction described by the claim: main walk over the source
positions, then the trailing walk while entries remain (positions up to
the largest remaining recorded position). -/
def diffInsSpec (bb1ins : List Nat) (add_ins remove_ins : List InsEntry) :
    List (Nat × Nat) :=
  let m := specWalkMain bb1ins 0 (buildOff add_ins) (buildOff remove_ins)
  m.1 ++ specTailGo ((max (alMaxKey m.2.1) (alMaxKey m.2.2)) + 1 - bb1ins.length)
    bb1ins.length m.2.1 m.2.2

/-! ## `Method.diff` (dalvik.py lines 345-440)

Inputs injected by the (external) elsim core: `self.bb` — a dict of the
method's own basic-block elements (only its values are used, so it is
modelled as the ordered list of elements, each a distinct object);
`self.sort_h` — the list of candidate matched methods, each carrying its
block dict `bb` (keyed by block name) and its hash index `bb_sha256`;
`func_sim_bb` — the block similarity oracle, whose float scores are
modelled as rationals.  Python's stable `sorted` is modelled by
`List.insertionSort`, which is also stable, so the two agree on ties. -/

/-- A basic-block object of the underlying graph (`name`, start offset). -/
structure BBlk where
  name : String
  start : Nat
deriving DecidableEq

/-- A block element of the first method (`bb1[b1]`): wraps the
basic-block object and exposes `get_hash()`. -/
structure Elem1 where
  basic_block : BBlk
  hash : Nat
deriving DecidableEq

/-- A block element of a candidate method (`bb2[b2]`). -/
structure Elem2 where
  basic_block : BBlk
deriving DecidableEq

/-- One entry of `self.sort_h`: the candidate method's block dict
(keyed by block name) and its `bb_sha256` hash index. -/
structure Cand where
  bb : List (String × Elem2)
  bb_sha256 : List (Nat × List Elem2)

/-- The state of `diff_bb[bb1[b1]]` while iterating `self.sort_h`: a
score dict at first, replaced by a `(element, score)` tuple when the
best score is nonzero (`del` is modelled as `none` at the caller). -/
inductive BZ where
  | dct (m : List (String × ℚ))
  | tup (t : Elem2 × ℚ)

/-- Errors `Method.diff` can raise: a `KeyError` (reading a deleted
`diff_bb` entry, or `bb2[name]` for a name that is not a key), the
`TypeError`/`AttributeError` family from using a tuple where a dict is
expected, and the `IndexError` from `sorted_bb[0]` on an empty dict. -/
inductive DiffErr where
  | keyError
  | typeError
  | indexError
deriving DecidableEq

/-- The `DiffBB(bb1, bb2, info)` wrapper record (its `start` is
`bb1.start`). -/
structure DiffBBRec where
  bb1 : BBlk
  bb2 : BBlk
  score : ℚ
deriving DecidableEq

/-- Output of `Method.diff`: the `self.dbb` dict (block name → `DiffBB`
wrapper), the `self.nbb` dict (basic-block object → `NewBB` wrapper),
and — as ghost instrumentation — the list of `(first-method block name,
second-method block name)` pairs recorded with score `0.0` (the
identical matches appended to `direct_diff_bb`). -/
structure MethodDiffResult where
  dbb : List (String × DiffBBRec)
  nbb : List (BBlk × BBlk)
  identPairs : List (String × String)
deriving DecidableEq

/-- Fill `b_z`: on a `bb_sha256` hit every hash-equal block gets score
`0.0`; otherwise every block of the candidate gets its similarity
score. -/
def setScores (fsim : Elem1 → Elem2 → ℚ) (w : Elem1) (cand : Cand)
    (bz : List (String × ℚ)) : List (String × ℚ) :=
  match alLookup cand.bb_sha256 w.hash with
  | some eqList => eqList.foldl (fun m e => alSet m e.basic_block.name 0) bz
  | none => cand.bb.foldl (fun m p => alSet m p.1 (fsim w p.2)) bz

/-- `sorted(b_z.items(), key=itemgetter(1))` — a stable sort by score. -/
def sortScores (m : List (String × ℚ)) : List (String × ℚ) :=
  List.insertionSort (fun p q => p.2 ≤ q.2) m

/-- Processing of one candidate for one first-method block: fill and
sort the score dict, record `associated_bb`/`direct_diff_bb` (and the
ghost identical pairs), then either keep the best pair (score nonzero)
or delete the entry (`none`). -/
def procCand (fsim : Elem1 → Elem2 → ℚ) (w : Elem1) (cand : Cand)
    (bz : List (String × ℚ)) (assoc : List (String × BBlk))
    (direct : List String) (ident : List (String × String)) :
    Except DiffErr
      (Option (Elem2 × ℚ) × List (String × BBlk) × List String ×
        List (String × String)) :=
  let bz2 := setScores fsim w cand bz
  let sorted_bb := sortScores bz2
  let assoc2 := sorted_bb.foldl (fun a p => alSet a p.1 w.basic_block) assoc
  let zeros := (sorted_bb.filter (fun p => decide (p.2 = 0))).map Prod.fst
  let direct2 := direct ++ zeros
  let ident2 := ident ++ zeros.map (fun nm => (w.basic_block.name, nm))
  match sorted_bb with
  | [] => .error .indexError
  | h :: _ =>
    if h.2 ≠ 0 then
      match alLookup cand.bb h.1 with
      | some e2 => .ok (some (e2, h.2), assoc2, direct2 ++ [h.1], ident2)
      | none => .error .keyError
    else
      .ok (none, assoc2, direct2, ident2)

/-- The `for i in self.sort_h` loop for one first-method block.  After
the first candidate the `diff_bb` entry is a tuple or deleted, so a
second candidate raises (`b_z = diff_bb[bb1[b1]]` is a `KeyError` on a
deleted entry; writing into / sorting a tuple raises a
`TypeError`/`AttributeError`, modelled uniformly as `typeError`). -/
def procB1 (fsim : Elem1 → Elem2 → ℚ) (w : Elem1) :
    List Cand → Option BZ → List (String × BBlk) → List String →
    List (String × String) →
    Except DiffErr
      (Option BZ × List (String × BBlk) × List String × List (String × String))
  | [], st, a, d, idp => .ok (st, a, d, idp)
  | cand :: rest, st, a, d, idp =>
    match st with
    | none => .error .keyError
    | some (.tup _) => .error .typeError
    | some (.dct bz) =>
      match procCand fsim w cand bz a d idp with
      | .error e => .error e
      | .ok (entry, a2, d2, idp2) =>
        procB1 fsim w rest
          (match entry with
           | some t => some (.tup t)
           | none => none) a2 d2 idp2

/-- The outer `for b1 in bb1` loop, accumulating the surviving
`diff_bb` entries in insertion order.  (A `diff_bb` entry can only
survive as a tuple: with a non-empty `sort_h` the dict state never
survives a full iteration.) -/
def diffMainLoop (fsim : Elem1 → Elem2 → ℚ) (sortH : List Cand) :
    List Elem1 → List (Elem1 × Elem2 × ℚ) → List (String × BBlk) →
    List String → List (String × String) →
    Except DiffErr
      (List (Elem1 × Elem2 × ℚ) × List (String × BBlk) × List String ×
        List (String × String))
  | [], acc, a, d, idp => .ok (acc, a, d, idp)
  | w :: rest, acc, a, d, idp =>
    match procB1 fsim w sortH (some (.dct [])) a d idp with
    | .error e => .error e
    | .ok (st, a2, d2, idp2) =>
      diffMainLoop fsim sortH rest
        (match st with
         | some (.tup t) => acc ++ [(w, t)]
         | _ => acc) a2 d2 idp2

/-- `Method.diff(func_sim_bb, func_diff_ins)` (dalvik.py lines 345-440)
up to the `self.dbb`/`self.nbb` assignment.  The subsequent statements
(`func_diff_ins`, `set_childs`, `create_bbs`) only fill the wrapper
records and tag blocks; they do not change which pairs are matched.  The
`del associated_bb[n]` cleanup is likewise irrelevant to the result. -/
def methodDiff (fsim : Elem1 → Elem2 → ℚ) (sortH : List Cand)
    (bb1 : List Elem1) : Except DiffErr MethodDiffResult :=
  if sortH.isEmpty then .ok { dbb := [], nbb := [], identPairs := [] }
  else
    match diffMainLoop fsim sortH bb1 [] [] [] [] with
    | .error e => .error e
    | .ok (diffList, _assoc, direct, ident) =>
      let new_bb := sortH.foldl
        (fun m cand =>
          cand.bb.foldl
            (fun m2 p => if direct.contains p.1 then m2 else alSet m2 p.1 p.2)
            m)
        []
      let dbb := diffList.foldl
        (fun m t => alSet m t.1.basic_block.name
          { bb1 := t.1.basic_block, bb2 := t.2.1.basic_block,
            score := t.2.2 })
        []
      let nbb := new_bb.foldl
        (fun m p => alSet m p.2.basic_block p.2.basic_block) []
      .ok { dbb := dbb, nbb := nbb, identPairs := ident }

/-- The matched pairs of a diff run, as `(first-method block name,
second-method block name)`: the identical (score `0.0`) matches plus the
similar matches stored in `dbb`. -/
def matchedPairs (r : MethodDiffResult) : List (String × String) :=
  r.identPairs ++ r.dbb.map (fun p => (p.2.bb1.name, p.2.bb2.name))

/-- A list of pairs is a partial bijection when no first component is
paired with two different second components and vice versa. -/
def bijectivePairs (l : List (String × String)) : Prop :=
  (∀ p ∈ l, ∀ q ∈ l, p.1 = q.1 → p.2 = q.2) ∧
  (∀ p ∈ l, ∀ q ∈ l, p.2 = q.2 → p.1 = q.1)

instance (l : List (String × String)) : Decidable (bijectivePairs l) := by
  unfold bijectivePairs
  infer_instance

instance {ε α : Type} [DecidableEq ε] [DecidableEq α] :
    DecidableEq (Except ε α) := fun x y =>
  match x, y with
  | .error a, .error b =>
    if h : a = b then .isTrue (h ▸ rfl)
    else .isFalse (fun hc => h (by cases hc; rfl))
  | .error _, .ok _ => .isFalse (fun hc => by cases hc)
  | .ok _, .error _ => .isFalse (fun hc => by cases hc)
  | .ok a, .ok b =>
    if h : a = b then .isTrue (h ▸ rfl)
    else .isFalse (fun hc => h (by cases hc; rfl))

/-- Constant similarity oracle used in concrete runs (score 1, i.e. a
non-identical similarity). -/
def cexSim : Elem1 → Elem2 → ℚ := fun _ _ => 1

/-- A concrete candidate method with a single block `b` whose hash (99)
matches no first-method block. -/
def cexCand : Cand := ⟨[("b", ⟨⟨"b", 0⟩⟩)], [(99, [⟨⟨"b", 0⟩⟩])]⟩

/-- Two concrete first-method blocks `a1`, `a2` with hashes 11 and 12. -/
def cexBlocks : List Elem1 := [⟨⟨"a1", 0⟩, 11⟩, ⟨⟨"a2", 4⟩, 12⟩]

/-! ## `Method.create_bbs` (dalvik.py lines 442-470) -/

/-- `DIFF_BB_TAG` (dalvik.py lines 304-308). -/
def BB_TAG_ORIG : Nat := 0

/-- `DIFF_BB_TAG["DIFF"]`. -/
def BB_TAG_DIFF : Nat := 1

/-- `DIFF_BB_TAG["NEW"]`. -/
def BB_TAG_NEW : Nat := 2

/-- An element of the final merged block list: an original block, a
`DiffBB` wrapper, or a `NewBB` wrapper. -/
inductive TaggedBB where
  | orig (b : BBlk)
  | diffb (d : DiffBBRec)
  | newb (b : BBlk)
deriving DecidableEq

/-- The `start` attribute used as the sort key (`DiffBB.start` and
`NewBB.start` are copied from the wrapped block). -/
def tbStart : TaggedBB → Nat
  | .orig b => b.start
  | .diffb d => d.bb1.start
  | .newb b => b.start

/-! ## `elsim/similarity/__init__.py`: `Compress`, `DBFormat` -/

/-- Python exceptions relevant to the embedded similarity module. -/
inductive PyErr where
  | jsonDecodeError
  | valueError
  | typeError
  | keyError
deriving DecidableEq

/-- The `Compress` enum (similarity/__init__.py lines 32-41). -/
inductive Compress where
  | ZLIB
  | BZ2
  | SMAZ
  | LZMA
  | XZ
  | SNAPPY
  | VCBLOCKSORT
deriving DecidableEq

/-- The names of the seven compression members. -/
def compressMemberNames : List String :=
  ["ZLIB", "BZ2", "SMAZ", "LZMA", "XZ", "SNAPPY", "VCBLOCKSORT"]

/-- The member carried by each member name. -/
def memberOfName (s : String) : Option Compress :=
  if s = "ZLIB" then some .ZLIB
  else if s = "BZ2" then some .BZ2
  else if s = "SMAZ" then some .SMAZ
  else if s = "LZMA" then some .LZMA
  else if s = "XZ" then some .XZ
  else if s = "SNAPPY" then some .SNAPPY
  else if s = "VCBLOCKSORT" then some .VCBLOCKSORT
  else none

/-- What `getattr(Compress, s)` yields: an enum member, or some other
class attribute (a function, descriptor, …) referred to by name. -/
inductive ClassAttr where
  | member (c : Compress)
  | attr (nm : String)
deriving DecidableEq

/-- The set of non-member attribute names of the `Compress` class is an
environment fact: it contains `by_name` (defined in the class body) and
the many inherited names (dunders such as `__doc__` and `__name__`,
enum machinery such as `__members__` and `mro`, and the `int`/`IntEnum`
methods such as `from_bytes` and `bit_length`), and its exact extent
depends on the interpreter version.  The model therefore takes this set
as a parameter `others`; every theorem holds for any instantiation, and
concrete runs instantiate it with `compressOtherAttrs` below. -/
def hasattrCompress (others : List String) (s : String) : Bool :=
  (memberOfName s).isSome || others.contains s

/-- A representative sample of the non-member attribute names of
`Compress` in CPython 3, used to instantiate the `others` parameter in
concrete runs.  `by_name` is certainly in the real set (the class body
defines it); the dunders and inherited `int`/`IntEnum` methods listed
here are present in every CPython 3 version. -/
def compressOtherAttrs : List String :=
  ["by_name", "__doc__", "__name__", "__module__", "__qualname__",
   "__members__", "mro", "from_bytes", "to_bytes", "bit_length",
   "conjugate", "numerator", "denominator", "real", "imag"]

/-- `getattr(Compress, s)` for an existing attribute. -/
def getattrCompress (s : String) : ClassAttr :=
  match memberOfName s with
  | some c => .member c
  | none => .attr s

/-- `Compress.by_name(name)` (similarity/__init__.py lines 42-47):
`if hasattr(Compress, name): return getattr(Compress, name)` else raise
`ValueError`, with the class's non-member attribute set passed as the
parameter `others`. -/
def by_name (others : List String) (s : String) : Except PyErr ClassAttr :=
  if hasattrCompress others s then .ok (getattrCompress s)
  else .error .valueError

/-! ## `DBFormat.__init__` (similarity/__init__.py lines 196-225)

The constructor opens the file and `json.load`s it inside a
`try/except IOError`.  A missing/unreadable file raises `IOError`
(caught: the corpus falls back to `{}`); a file that is not valid JSON
raises `json.JSONDecodeError` — a subclass of `ValueError`, *not* of
`IOError` — which propagates.  The environment interaction is modelled
by the outcome of the open-and-parse step. -/

/-- A parsed JSON value as far as the corpus format reaches (objects,
strings, integers; other JSON kinds would only add more `TypeError`
branches to the loops below). -/
inductive JVal where
  | jstr (s : String)
  | jint (n : Int)
  | jobj (entries : List (String × JVal))

/-- Outcome of `open(filename)` + `json.load`. -/
inductive ReadOutcome where
  | ioError
  | parseError
  | parsed (d : List (String × JVal))

/-- The constructed `DBFormat` state: the raw corpus `D`, the element-id
set index `H` and the compiled `NAME` patterns `N` (a compiled regex is
abstracted by its source string). -/
structure DBState where
  D : List (String × JVal)
  H : List (String × List (String × List (String × List Int)))
  N : List (String × String)

/-- `int(e)` over the keys of an element-class dict; a non-numeric key
raises `ValueError`. -/
def intsOfKeys : List (String × JVal) → Except PyErr (List Int)
  | [] => .ok []
  | (e, _) :: rest =>
    match e.toInt? with
    | some n =>
      match intsOfKeys rest with
      | .ok l => .ok (n :: l)
      | .error err => .error err
    | none => .error .valueError

/-- The `for k in self.D[i][j]` loop: dict-valued entries contribute
their key set, other values are skipped (`isinstance` check). -/
def buildSub : List (String × JVal) → Except PyErr (List (String × List Int))
  | [] => .ok []
  | (k, vk) :: rest =>
    match vk with
    | .jobj o =>
      match intsOfKeys o with
      | .error err => .error err
      | .ok ints =>
        match buildSub rest with
        | .error err => .error err
        | .ok l => .ok ((k, ints) :: l)
    | _ =>
      match buildSub rest with
      | .error err => .error err
      | .ok l => .ok l

/-- The `for j in self.D[i]` loop: a `NAME` entry is compiled as the
family's regex (a non-string raises `TypeError`), any other entry is
walked by `buildSub` (iterating an int raises `TypeError`; iterating a
non-empty string raises `TypeError` at the string indexing, while the
empty string iterates nothing). -/
def buildFamEntries : List (String × JVal) →
    Except PyErr (List (String × List (String × List Int)) × Option String)
  | [] => .ok ([], none)
  | (j, vj) :: rest =>
    if j = "NAME" then
      match vj with
      | .jstr s =>
        match buildFamEntries rest with
        | .error err => .error err
        | .ok (h, _) => .ok (h, some s)
      | _ => .error .typeError
    else
      match vj with
      | .jobj entries2 =>
        match buildSub entries2 with
        | .error err => .error err
        | .ok sub =>
          match buildFamEntries rest with
          | .error err => .error err
          | .ok (h, nOpt) => .ok ((j, sub) :: h, nOpt)
      | .jint _ => .error .typeError
      | .jstr s =>
        if s = "" then
          match buildFamEntries rest with
          | .error err => .error err
          | .ok (h, nOpt) => .ok ((j, []) :: h, nOpt)
        else .error .typeError

/-- One family value `self.D[i]`. -/
def buildFam : JVal →
    Except PyErr (List (String × List (String × List Int)) × Option String)
  | .jobj es => buildFamEntries es
  | .jint _ => .error .typeError
  | .jstr s => if s = "" then .ok ([], none) else .error .typeError

/-- The `for i in self.D` loop building `H` and `N`. -/
def buildHN : List (String × JVal) →
    Except PyErr (List (String × List (String × List (String × List Int))) ×
      List (String × String))
  | [] => .ok ([], [])
  | (i, vi) :: rest =>
    match buildFam vi with
    | .error err => .error err
    | .ok (hi, nOpt) =>
      match buildHN rest with
      | .error err => .error err
      | .ok (hs, ns) =>
        .ok ((i, hi) :: hs,
          match nOpt with
          | some s => (i, s) :: ns
          | none => ns)

/-- `DBFormat.__init__` (similarity/__init__.py lines 196-225). -/
def DBFormat_init (read : ReadOutcome) : Except PyErr DBState :=
  match read with
  | .ioError => .ok { D := [], H := [], N := [] }
  | .parseError => .error .jsonDecodeError
  | .parsed d =>
    match buildHN d with
    | .error err => .error err
    | .ok (h, n) => .ok { D := d, H := h, N := n }

/-! ## `DBFormat.add_element` (similarity/__init__.py lines 233-253)

From an empty corpus only `add_element` writes, so the corpus shape is
`name → sname → key → entry` with entries `"SIZE" ↦ int` and
`element class ↦ {element ↦ size}` (`add_name`'s `"NAME"` string never
occurs in this scope).  Python's in-place dict mutations persist across
a raised exception, so each step returns a possibly-mutated corpus with
a status. -/

/-- A value of a sub-category dict: the `"SIZE"` counter or an
element-class dict. -/
inductive DBEntry where
  | int (n : Int)
  | dict (m : List (String × Int))
deriving DecidableEq

/-- A sub-category dict. -/
abbrev DBSub : Type := List (String × DBEntry)

/-- A family dict. -/
abbrev DBFam : Type := List (String × DBSub)

/-- The corpus `self.D`. -/
abbrev DBCorpus : Type := List (String × DBFam)

/-- Status of one statement block of `add_element`. -/
inductive AddStatus where
  | ok
  | keyErr
  | typeErr
deriving DecidableEq

/-- The `try` block of `add_element`: look up
`self.D[name][sname][sclass]` (a missing key raises `KeyError`; an `int`
value — the `"SIZE"` counter — raises `TypeError` on the `in` test);
when the element is absent, store it and then increment
`self.D[name][sname]["SIZE"]` (this lookup can itself raise after the
element store has already mutated the corpus). -/
def tryAdd (D : DBCorpus) (name sname sclass : String) (size : Int)
    (elem : String) : DBCorpus × AddStatus :=
  match alLookup D name with
  | none => (D, .keyErr)
  | some fam =>
    match alLookup fam sname with
    | none => (D, .keyErr)
    | some sub =>
      match alLookup sub sclass with
      | none => (D, .keyErr)
      | some (.int _) => (D, .typeErr)
      | some (.dict m) =>
        if (m.map Prod.fst).contains elem then (D, .ok)
        else
          let sub2 := alSet sub sclass (.dict (alSet m elem size))
          let D2 := alSet D name (alSet fam sname sub2)
          match alLookup sub2 "SIZE" with
          | none => (D2, .keyErr)
          | some (.dict _) => (D2, .typeErr)
          | some (.int v) =>
            (alSet D name (alSet fam sname (alSet sub2 "SIZE" (.int (v + size)))),
             .ok)

/-- The two trailing statements of the `except KeyError` handler:
`self.D[name][sname]["SIZE"] += size` then
`self.D[name][sname][sclass][elem] = size`. -/
def finishAdd (D : DBCorpus) (name sname sclass : String) (size : Int)
    (elem : String) : DBCorpus × AddStatus :=
  match alLookup D name with
  | none => (D, .keyErr)
  | some fam =>
    match alLookup fam sname with
    | none => (D, .keyErr)
    | some sub =>
      match alLookup sub "SIZE" with
      | none => (D, .keyErr)
      | some (.dict _) => (D, .typeErr)
      | some (.int v) =>
        let sub2 := alSet sub "SIZE" (.int (v + size))
        let D2 := alSet D name (alSet fam sname sub2)
        match alLookup sub2 sclass with
        | none => (D2, .keyErr)
        | some (.int _) => (D2, .typeErr)
        | some (.dict m) =>
          (alSet D name (alSet fam sname
            (alSet sub2 sclass (.dict (alSet m elem size)))), .ok)

/-- The `except KeyError` handler: create the missing level
(family / sub-category / element class), then run the two trailing
statements. -/
def exceptAdd (D : DBCorpus) (name sname sclass : String) (size : Int)
    (elem : String) : DBCorpus × AddStatus :=
  let D1 :=
    match alLookup D name with
    | none =>
      alSet D name
        (alSet ([] : DBFam) sname
          (alSet (alSet ([] : DBSub) "SIZE" (.int 0)) sclass (.dict [])))
    | some fam =>
      match alLookup fam sname with
      | none =>
        alSet D name
          (alSet fam sname
            (alSet (alSet ([] : DBSub) "SIZE" (.int 0)) sclass (.dict [])))
      | some sub =>
        match alLookup sub sclass with
        | none => alSet D name (alSet fam sname (alSet sub sclass (.dict [])))
        | some _ => D
  finishAdd D1 name sname sclass size elem

/-- `DBFormat.add_element(name, sname, sclass, size, elem)`
(similarity/__init__.py lines 233-253). -/
def add_element (D : DBCorpus) (name sname sclass : String) (size : Int)
    (elem : String) : Except PyErr DBCorpus :=
  match tryAdd D name sname sclass size elem with
  | (D2, .ok) => .ok D2
  | (_, .typeErr) => .error .typeError
  | (D2, .keyErr) =>
    match exceptAdd D2 name sname sclass size elem with
    | (D3, .ok) => .ok D3
    | (_, .keyErr) => .error .keyError
    | (_, .typeErr) => .error .typeError

/-- One `add_element` call's arguments. -/
structure AddCall where
  name : String
  sname : String
  sclass : String
  size : Int
  elem : String

/-- A sequence of `add_element` calls on a corpus; the first raised
exception aborts the sequence. -/
def runAddsFrom (D : DBCorpus) : List AddCall → Except PyErr DBCorpus
  | [] => .ok D
  | c :: rest =>
    match add_element D c.name c.sname c.sclass c.size c.elem with
    | .error e => .error e
    | .ok D2 => runAddsFrom D2 rest

/-- A sequence of `add_element` calls starting from the empty corpus. -/
def runAdds (calls : List AddCall) : Except PyErr DBCorpus :=
  runAddsFrom [] calls

/-- Total size recorded in one element-class dict. -/
def entrySizes : DBEntry → Int
  | .int _ => 0
  | .dict m => (m.map Prod.snd).sum

/-- Sum of the element sizes recorded under all element classes of a
sub-category (every key except the reserved `"SIZE"`, whose entry
contributes nothing). -/
def classSum (sub : DBSub) : Int :=
  (sub.map (fun p => if p.1 = "SIZE" then 0 else entrySizes p.2)).sum

/-- Well-formedness of a sub-category dict: the `"SIZE"` entry holds
exactly the sum of the element sizes recorded under its element
classes, and every non-`"SIZE"` entry is an element-class dict. -/
def subWF (sub : DBSub) : Prop :=
  alLookup sub "SIZE" = some (.int (classSum sub)) ∧
  ∀ p ∈ sub, p.1 ≠ "SIZE" → ∃ m, p.2 = DBEntry.dict m

/-- Well-formedness of a family dict. -/
def famWF (fam : DBFam) : Prop := ∀ s ∈ fam, subWF s.2

/-- Well-formedness of the whole corpus. -/
def dbWF (D : DBCorpus) : Prop := ∀ f ∈ D, famWF f.2

/-- `Method.create_bbs()` (dalvik.py lines 442-470): originals keep tag
ORIG unless reclassified to the `DiffBB` wrapper with tag DIFF, `NewBB`
wrappers are appended with tag NEW, and the whole list is sorted by
block start offset (Python's stable `sorted`, modelled by the equally
stable `insertionSort`).  Each element is returned with the `bb_tag` the
code assigns to it. -/
def create_bbs (origBlocks : List BBlk) (dbb : List (String × DiffBBRec))
    (nbb : List (BBlk × BBlk)) : List (TaggedBB × Nat) :=
  let l1 := origBlocks.map (fun bb =>
    match alLookup dbb bb.name with
    | some d => (TaggedBB.diffb d, BB_TAG_DIFF)
    | none => (TaggedBB.orig bb, BB_TAG_ORIG))
  let l2 := l1 ++ nbb.map (fun p => (TaggedBB.newb p.2, BB_TAG_NEW))
  List.insertionSort (fun a b => tbStart a.1 ≤ tbStart b.1) l2

end Elsim

namespace Elsim

theorem insertAt_length (p t : Nat) (l : List Nat) :
    (insertAt p t l).length = l.length + 1 := by
  induction l generalizing p with
  | nil => cases p <;> simp [insertAt]
  | cons x xs ih =>
    cases p with
    | zero => simp [insertAt]
    | succ q => simp [insertAt, ih]

theorem insertAt_at_length (t : Nat) (l : List Nat) :
    insertAt l.length t l = l ++ [t] := by
  induction l with
  | nil => simp [insertAt]
  | cons x xs ih => simp [insertAt, ih]

theorem insertAt_append_of_le (p t x : Nat) (l : List Nat) (h : p ≤ l.length) :
    insertAt p t (l ++ [x]) = insertAt p t l ++ [x] := by
  induction l generalizing p with
  | nil =>
    have hp : p = 0 := by simpa using h
    subst hp
    rfl
  | cons y ys ih =>
    cases p with
    | zero => simp [insertAt]
    | succ q =>
      simp only [List.cons_append, insertAt, List.cons.injEq, true_and]
      exact ih q (by simpa using h)

theorem insOK_mono (a : List (Nat × Nat)) :
    ∀ m n, m ≤ n → insOK m a → insOK n a := by
  induction a with
  | nil => intro m n _ _; trivial
  | cons pt rest ih =>
    intro m n hmn h
    exact ⟨le_trans h.1 hmn, ih (m+1) (n+1) (by omega) h.2⟩

theorem applyAdds_append_elem (a : List (Nat × Nat)) :
    ∀ (l : List Nat) (x : Nat), insOK l.length a →
    applyAdds (l ++ [x]) a = applyAdds l a ++ [x] := by
  induction a with
  | nil => intro l x _; simp [applyAdds]
  | cons pt rest ih =>
    intro l x h
    simp only [applyAdds, List.foldl_cons]
    rw [insertAt_append_of_le pt.1 pt.2 x l h.1]
    have h2 : insOK (insertAt pt.1 pt.2 l).length rest := by
      rw [insertAt_length]; exact h.2
    exact ih (insertAt pt.1 pt.2 l) x h2

theorem applyAdds_snoc (l : List Nat) (a : List (Nat × Nat)) (pt : Nat × Nat) :
    applyAdds l (a ++ [pt]) = insertAt pt.1 pt.2 (applyAdds l a) := by
  simp [applyAdds, List.foldl_append]

theorem insOK_snoc (a : List (Nat × Nat)) :
    ∀ n p t, insOK n a → p ≤ n + a.length → insOK n (a ++ [(p, t)]) := by
  induction a with
  | nil => intro n p t _ hp; exact ⟨by simpa using hp, trivial⟩
  | cons pt rest ih =>
    intro n p t h hp
    exact ⟨h.1, ih (n+1) p t h.2 (by simp at hp ⊢; omega)⟩

theorem applyAdds_length (a : List (Nat × Nat)) :
    ∀ l : List Nat, insOK l.length a →
    (applyAdds l a).length = l.length + a.length := by
  induction a with
  | nil => intro l _; simp [applyAdds]
  | cons pt rest ih =>
    intro l h
    simp only [applyAdds, List.foldl_cons]
    have h2 : insOK (insertAt pt.1 pt.2 l).length rest := by
      rw [insertAt_length]; exact h.2
    have := ih (insertAt pt.1 pt.2 l) h2
    simp only [applyAdds] at this
    rw [this, insertAt_length]
    simp only [List.length_cons]
    omega

theorem eraseIdxsFrom_congr (rs rs2 : List Nat) (l : List Nat) :
    ∀ p, (∀ k, p ≤ k → k < p + l.length → (k ∈ rs ↔ k ∈ rs2)) →
    eraseIdxsFrom rs l p = eraseIdxsFrom rs2 l p := by
  induction l with
  | nil => intro p _; simp [eraseIdxsFrom]
  | cons x xs ih =>
    intro p h
    have hx : (p ∈ rs) = (p ∈ rs2) := by
      have := h p (le_refl p) (by simp)
      exact propext this
    have ht : eraseIdxsFrom rs xs (p+1) = eraseIdxsFrom rs2 xs (p+1) :=
      ih (p+1) (fun k h1 h2 => h k (by omega)
        (by simp only [List.length_cons] at h2 ⊢; omega))
    simp only [eraseIdxsFrom, hx, ht]

theorem eraseIdxsFrom_append (rs : List Nat) (l : List Nat) (x : Nat) :
    ∀ p, eraseIdxsFrom rs (l ++ [x]) p =
      eraseIdxsFrom rs l p ++ (if (p + l.length) ∈ rs then [] else [x]) := by
  induction l with
  | nil =>
    intro p
    by_cases h : p ∈ rs <;> simp [eraseIdxsFrom, h]
  | cons y ys ih =>
    intro p
    have hys := ih (p+1)
    have hidx : p + (y :: ys).length = (p + 1) + ys.length := by
      simp only [List.length_cons]
      omega
    by_cases h : p ∈ rs
    · simp only [List.cons_append, eraseIdxsFrom, if_pos h, List.append_eq,
        hys, hidx]
    · simp only [List.cons_append, eraseIdxsFrom, if_neg h, List.append_eq,
        hys, hidx, List.cons_append]

theorem take_succ_getD (l : List Nat) :
    ∀ i, i < l.length → l.take (i+1) = l.take i ++ [l.getD i 0] := by
  induction l with
  | nil => intro i h; simp at h
  | cons x xs ih =>
    intro i h
    cases i with
    | zero => simp
    | succ k =>
      simp only [List.take_succ_cons, List.getD_cons_succ, List.cons_append]
      rw [← ih k (by simpa using h)]

/-- One-step unfolding of `getDiff`. -/
theorem getDiff_eq (C : List (List Nat)) (X Y : List Nat)
    (i j : Nat) (a r : List (Nat × Nat)) :
    getDiff C X Y i j a r =
    if 0 < i ∧ 0 < j ∧ X.getD (i-1) 0 = Y.getD (j-1) 0 then
      getDiff C X Y (i-1) (j-1) a r
    else if 0 < j ∧ (i = 0 ∨ tbl C i (j-1) ≥ tbl C (i-1) j) then
      let p := getDiff C X Y i (j-1) a r
      (p.1 ++ [(j-1, Y.getD (j-1) 0)], p.2)
    else if 0 < i ∧ (j = 0 ∨ tbl C i (j-1) < tbl C (i-1) j) then
      let p := getDiff C X Y (i-1) j a r
      (p.1, p.2 ++ [(i-1, X.getD (i-1) 0)])
    else (a, r) := by
  rw [getDiff]

/-- The backtrack invariant: for any table `C`, removing the recorded
indices from `X.take i` and then performing the recorded insertions
reconstructs `Y.take j`; the remove indices stay below `i` and the
insertions stay in bounds. -/
theorem getDiff_invariant (C : List (List Nat)) (X Y : List Nat) :
    ∀ n i j, i + j ≤ n → i ≤ X.length → j ≤ Y.length →
    (∀ q ∈ (getDiff C X Y i j [] []).2.map Prod.fst, q < i) ∧
    insOK (applyRemoves (X.take i) ((getDiff C X Y i j [] []).2.map Prod.fst)).length
      (getDiff C X Y i j [] []).1 ∧
    applyAdds (applyRemoves (X.take i) ((getDiff C X Y i j [] []).2.map Prod.fst))
      (getDiff C X Y i j [] []).1 = Y.take j := by
  intro n
  induction n with
  | zero =>
    intro i j hn _ _
    have hi : i = 0 := by omega
    have hj : j = 0 := by omega
    subst hi; subst hj
    rw [getDiff_eq]
    simp [applyRemoves, eraseIdxsFrom, applyAdds, insOK]
  | succ n ih =>
    intro i j hn hx hy
    by_cases h1 : 0 < i ∧ 0 < j ∧ X.getD (i-1) 0 = Y.getD (j-1) 0
    · rw [getDiff_eq, if_pos h1]
      obtain ⟨f1, f2, f3⟩ := ih (i-1) (j-1) (by omega) (by omega) (by omega)
      set A := (getDiff C X Y (i-1) (j-1) [] []).1 with hA
      set R := (getDiff C X Y (i-1) (j-1) [] []).2.map Prod.fst with hR
      have htk : X.take i = X.take (i-1) ++ [X.getD (i-1) 0] := by
        have ht2 := take_succ_getD X (i-1) (by omega)
        have ht3 : i - 1 + 1 = i := by omega
        rw [ht3] at ht2
        exact ht2
      have hty : Y.take j = Y.take (j-1) ++ [Y.getD (j-1) 0] := by
        have ht2 := take_succ_getD Y (j-1) (by omega)
        have ht3 : j - 1 + 1 = j := by omega
        rw [ht3] at ht2
        exact ht2
      have hlen : (X.take (i-1)).length = i - 1 := by
        simp only [List.length_take]
        omega
      have hbase : applyRemoves (X.take i) R =
          applyRemoves (X.take (i-1)) R ++ [X.getD (i-1) 0] := by
        rw [htk]
        unfold applyRemoves
        rw [eraseIdxsFrom_append]
        have hnm : (0 + (X.take (i-1)).length) ∉ R := by
          rw [hlen, Nat.zero_add]
          intro hmem
          exact absurd (f1 _ hmem) (by omega)
        rw [if_neg hnm]
      refine ⟨?_, ?_, ?_⟩
      · intro q hq; have := f1 q hq; omega
      · rw [hbase]
        simp only [List.length_append, List.length_singleton]
        exact insOK_mono A _ _ (by omega) f2
      · rw [hbase, applyAdds_append_elem A _ _ f2, f3, h1.2.2, ← hty]
    · by_cases h2 : 0 < j ∧ (i = 0 ∨ tbl C i (j-1) ≥ tbl C (i-1) j)
      · rw [getDiff_eq, if_neg h1, if_pos h2]
        obtain ⟨f1, f2, f3⟩ := ih i (j-1) (by omega) (by omega) (by omega)
        set A := (getDiff C X Y i (j-1) [] []).1 with hA
        set R := (getDiff C X Y i (j-1) [] []).2.map Prod.fst with hR
        simp only
        refine ⟨?_, ?_, ?_⟩
        · intro q hq; exact f1 q hq
        · apply insOK_snoc A _ _ _ f2
          have hl := applyAdds_length A _ f2
          rw [f3] at hl
          have hlen : (Y.take (j-1)).length = j - 1 := by
            simp only [List.length_take]
            omega
          omega
        · rw [applyAdds_snoc, f3]
          have hlen : (Y.take (j-1)).length = j - 1 := by
            simp only [List.length_take]
            omega
          have hins := insertAt_at_length (Y.getD (j-1) 0) (Y.take (j-1))
          rw [hlen] at hins
          rw [hins]
          have hty : Y.take j = Y.take (j-1) ++ [Y.getD (j-1) 0] := by
            have ht2 := take_succ_getD Y (j-1) (by omega)
            have ht3 : j - 1 + 1 = j := by omega
            rw [ht3] at ht2
            exact ht2
          rw [← hty]
      · by_cases h3 : 0 < i ∧ (j = 0 ∨ tbl C i (j-1) < tbl C (i-1) j)
        · rw [getDiff_eq, if_neg h1, if_neg h2, if_pos h3]
          obtain ⟨f1, f2, f3⟩ := ih (i-1) j (by omega) (by omega) (by omega)
          set A := (getDiff C X Y (i-1) j [] []).1 with hA
          set R := (getDiff C X Y (i-1) j [] []).2.map Prod.fst with hR
          simp only [List.map_append, List.map_cons, List.map_nil]
          have htk : X.take i = X.take (i-1) ++ [X.getD (i-1) 0] := by
            have ht2 := take_succ_getD X (i-1) (by omega)
            have ht3 : i - 1 + 1 = i := by omega
            rw [ht3] at ht2
            exact ht2
          have hlen : (X.take (i-1)).length = i - 1 := by
            simp only [List.length_take]
            omega
          have hbase : applyRemoves (X.take i) (R ++ [i-1]) =
              applyRemoves (X.take (i-1)) R := by
            rw [htk]
            unfold applyRemoves
            rw [eraseIdxsFrom_append]
            have hmem : (0 + (X.take (i-1)).length ∈ R ++ [i-1]) := by
              rw [hlen]; simp
            rw [if_pos hmem]
            rw [eraseIdxsFrom_congr (R ++ [i-1]) R]
            · simp
            · intro k hk1 hk2
              rw [hlen] at hk2
              simp only [List.mem_append, List.mem_singleton]
              constructor
              · rintro (h | h)
                · exact h
                · omega
              · intro h; exact Or.inl h
          refine ⟨?_, ?_, ?_⟩
          · intro q hq
            simp only [List.mem_append, List.mem_singleton] at hq
            rcases hq with h | h
            · have := f1 q h; omega
            · omega
          · rw [hbase]; exact f2
          · rw [hbase]; exact f3
        · have hij : i = 0 ∧ j = 0 := by
            by_contra hc
            rcases Nat.eq_zero_or_pos j with hj0 | hjp
            · rcases Nat.eq_zero_or_pos i with hi0 | hip
              · exact hc ⟨hi0, hj0⟩
              · exact h3 ⟨hip, Or.inl hj0⟩
            · rcases Nat.eq_zero_or_pos i with hi0 | hip
              · exact h2 ⟨hjp, Or.inl hi0⟩
              · have hge : ¬ tbl C i (j-1) ≥ tbl C (i-1) j := fun h => h2 ⟨hjp, Or.inr h⟩
                exact h3 ⟨hip, Or.inr (by omega)⟩
          obtain ⟨hi0, hj0⟩ := hij
          subst hi0; subst hj0
          rw [getDiff_eq]
          simp [applyRemoves, eraseIdxsFrom, applyAdds, insOK]

/-- C3: for every pair of finite token sequences `X` and `Y`, the `added`
and `removed` lists produced by the LCS backtrack (`getDiff` over the
table built by `LCS`) satisfy the round-trip property: deleting from `X`
the tokens at the recorded remove indices and then inserting the recorded
added tokens at their recorded `Y` indices yields exactly `Y`. -/
theorem lcs_getDiff_roundtrip (X Y : List Nat) :
    applyAdds
      (applyRemoves X ((getDiff (LCS X Y) X Y X.length Y.length [] []).2.map Prod.fst))
      (getDiff (LCS X Y) X Y X.length Y.length [] []).1 = Y := by
  have h := (getDiff_invariant (LCS X Y) X Y (X.length + Y.length)
    X.length Y.length (le_refl _) (le_refl _) (le_refl _)).2.2
  simpa using h

/-- C8: during LCS backtracking, when the current tokens of `X` and `Y`
diverge, the computation is fully pinned by the comparison of the count
to the left (`C[i][j-1]`) with the count above (`C[i-1][j]`): whenever
the left count is NOT strictly smaller — which includes the
equal-counts tie — the current `Y`-token is classified as an insertion
(the insertion step is taken, no removal is emitted at this step), and
the removal step is taken exactly in the remaining case, i.e. a removal
is emitted only when the count to the left is strictly smaller than the
count above.  The two conditions are complementary, so every divergence
case is covered by one of the conjuncts. -/
theorem getDiff_tie_prefers_insertion (C : List (List Nat)) (X Y : List Nat)
    (i j : Nat) (a r : List (Nat × Nat)) (hi : 0 < i) (hj : 0 < j)
    (hne : X.getD (i-1) 0 ≠ Y.getD (j-1) 0) :
    (¬ tbl C i (j-1) < tbl C (i-1) j →
      getDiff C X Y i j a r =
        ((getDiff C X Y i (j-1) a r).1 ++ [(j-1, Y.getD (j-1) 0)],
         (getDiff C X Y i (j-1) a r).2)) ∧
    (tbl C i (j-1) < tbl C (i-1) j →
      getDiff C X Y i j a r =
        ((getDiff C X Y (i-1) j a r).1,
         (getDiff C X Y (i-1) j a r).2 ++ [(i-1, X.getD (i-1) 0)])) := by
  constructor
  · intro hge
    rw [getDiff_eq]
    rw [if_neg (by tauto), if_pos ⟨hj, Or.inr (by omega)⟩]
  · intro hlt
    rw [getDiff_eq]
    rw [if_neg (by tauto), if_neg (by rintro ⟨_, h | h⟩ <;> omega),
      if_pos ⟨hi, Or.inr hlt⟩]

/-! ### Association-list lemmas -/

theorem alLookup_some_mem {κ α : Type} [DecidableEq κ] (m : List (κ × α))
    (k : κ) (v : α) (h : alLookup m k = some v) : (k, v) ∈ m := by
  induction m with
  | nil => simp [alLookup] at h
  | cons e rest ih =>
    obtain ⟨k2, v2⟩ := e
    by_cases hk : k2 = k
    · subst hk
      simp [alLookup] at h
      simp [h]
    · simp [alLookup, hk] at h
      exact List.mem_cons_of_mem _ (ih h)

theorem alErase_subset {κ α : Type} [DecidableEq κ] (m : List (κ × α))
    (k : κ) (e : κ × α) (h : e ∈ alErase m k) : e ∈ m := by
  induction m with
  | nil => simp [alErase] at h
  | cons e2 rest ih =>
    obtain ⟨k2, v2⟩ := e2
    by_cases hk : k2 = k
    · subst hk
      simp only [alErase, if_pos rfl] at h
      exact List.mem_cons_of_mem _ h
    · simp only [alErase, if_neg hk] at h
      rcases List.mem_cons.1 h with h | h
      · simp [h]
      · exact List.mem_cons_of_mem _ (ih h)

theorem alErase_of_lookup_none {κ α : Type} [DecidableEq κ] (m : List (κ × α))
    (k : κ) (h : alLookup m k = none) : alErase m k = m := by
  induction m with
  | nil => rfl
  | cons e rest ih =>
    obtain ⟨k2, v2⟩ := e
    by_cases hk : k2 = k
    · subst hk; simp [alLookup] at h
    · simp only [alLookup, if_neg hk] at h
      simp [alErase, hk, ih h]

theorem le_foldl_max (l : List Nat) : ∀ a : Nat, a ≤ l.foldl max a := by
  induction l with
  | nil => intro a; simp
  | cons x xs ih =>
    intro a
    calc a ≤ max a x := le_max_left a x
    _ ≤ xs.foldl max (max a x) := ih (max a x)

theorem mem_le_foldl_max (l : List Nat) :
    ∀ (a x : Nat), x ∈ l → x ≤ l.foldl max a := by
  induction l with
  | nil => intro a x h; simp at h
  | cons y ys ih =>
    intro a x h
    rcases List.mem_cons.1 h with h | h
    · subst h
      calc x ≤ max a x := le_max_right a x
      _ ≤ ys.foldl max (max a x) := le_foldl_max ys (max a x)
    · exact ih (max a y) x h

theorem mem_le_alMaxKey {α : Type} (m : List (Nat × α)) (e : Nat × α)
    (h : e ∈ m) : e.1 ≤ alMaxKey m :=
  mem_le_foldl_max (m.map Prod.fst) 0 e.1 (List.mem_map_of_mem Prod.fst h)

theorem alLookup_none_of_keys_lt {α : Type} (m : List (Nat × α)) (p : Nat)
    (h : ∀ e ∈ m, e.1 < p) : alLookup m p = none := by
  cases hl : alLookup m p with
  | none => rfl
  | some v =>
    have := h _ (alLookup_some_mem m p v hl)
    simp at this

/-! ### `diff_ins` step lemmas -/

theorem diffInsStep_ins (st : DiffInsState) (nb i : Nat) :
    (diffInsStep st nb i).ins = st.ins ++ specEmit st.offA st.offR nb (some i) := by
  unfold diffInsStep specEmit
  cases hA : alLookup st.offA nb <;> cases hR : alLookup st.offR nb <;>
    simp [hA, hR]

theorem diffInsStep_offA (st : DiffInsState) (nb i : Nat) :
    (diffInsStep st nb i).offA = alErase st.offA nb := by
  unfold diffInsStep
  cases hA : alLookup st.offA nb with
  | some e => cases hR : alLookup st.offR nb <;> simp [hA, hR]
  | none =>
    rw [alErase_of_lookup_none _ _ hA]
    cases hR : alLookup st.offR nb <;> simp [hA, hR]

theorem diffInsStep_offR (st : DiffInsState) (nb i : Nat) :
    (diffInsStep st nb i).offR = alErase st.offR nb := by
  unfold diffInsStep
  cases hA : alLookup st.offA nb <;> cases hR : alLookup st.offR nb <;>
    first
    | (rw [alErase_of_lookup_none _ _ hR]; simp [hA, hR])
    | simp [hA, hR]

theorem diffInsTailStep_ins (st : DiffInsState) (nb : Nat) :
    (diffInsTailStep st nb).ins = st.ins ++ specEmit st.offA st.offR nb none := by
  unfold diffInsTailStep specEmit
  cases hA : alLookup st.offA nb <;> cases hR : alLookup st.offR nb <;>
    simp [hA, hR]

theorem diffInsTailStep_offA (st : DiffInsState) (nb : Nat) :
    (diffInsTailStep st nb).offA = alErase st.offA nb := by
  unfold diffInsTailStep
  cases hA : alLookup st.offA nb with
  | some e => cases hR : alLookup st.offR nb <;> simp [hA, hR]
  | none =>
    rw [alErase_of_lookup_none _ _ hA]
    cases hR : alLookup st.offR nb <;> simp [hA, hR]

theorem diffInsTailStep_offR (st : DiffInsState) (nb : Nat) :
    (diffInsTailStep st nb).offR = alErase st.offR nb := by
  unfold diffInsTailStep
  cases hA : alLookup st.offA nb <;> cases hR : alLookup st.offR nb <;>
    first
    | (rw [alErase_of_lookup_none _ _ hR]; simp [hA, hR])
    | simp [hA, hR]

/-! ### Loop-level correspondence with the spec walk -/

theorem diffInsMain_spec : ∀ (l : List Nat) (p : Nat) (st : DiffInsState),
    (diffInsMain l p st).ins = st.ins ++ (specWalkMain l p st.offA st.offR).1 ∧
    (diffInsMain l p st).offA = (specWalkMain l p st.offA st.offR).2.1 ∧
    (diffInsMain l p st).offR = (specWalkMain l p st.offA st.offR).2.2 := by
  intro l
  induction l with
  | nil => intro p st; simp [diffInsMain, specWalkMain]
  | cons i rest ih =>
    intro p st
    obtain ⟨h1, h2, h3⟩ := ih (p+1) (diffInsStep st p i)
    rw [diffInsStep_offA, diffInsStep_offR] at h1 h2 h3
    rw [diffInsStep_ins] at h1
    refine ⟨?_, ?_, ?_⟩
    · show (diffInsMain rest (p+1) (diffInsStep st p i)).ins = _
      rw [h1]
      simp [specWalkMain, List.append_assoc]
    · show (diffInsMain rest (p+1) (diffInsStep st p i)).offA = _
      rw [h2]
      simp [specWalkMain]
    · show (diffInsMain rest (p+1) (diffInsStep st p i)).offR = _
      rw [h3]
      simp [specWalkMain]

theorem diffInsTail_spec : ∀ (fuel p : Nat) (st : DiffInsState),
    (diffInsTail fuel p st).ins = st.ins ++ specTailGo fuel p st.offA st.offR := by
  intro fuel
  induction fuel with
  | zero => intro p st; simp [diffInsTail, specTailGo]
  | succ f ih =>
    intro p st
    have h := ih (p+1) (diffInsTailStep st p)
    rw [diffInsTailStep_ins, diffInsTailStep_offA, diffInsTailStep_offR] at h
    simp only [diffInsTail, specTailGo, h, List.append_assoc]

theorem specTailGo_nil_of_keys_lt :
    ∀ (fuel p : Nat) (offA offR : List (Nat × InsEntry)),
    (∀ e ∈ offA, e.1 < p) → (∀ e ∈ offR, e.1 < p) →
    specTailGo fuel p offA offR = [] := by
  intro fuel
  induction fuel with
  | zero => intro p offA offR _ _; rfl
  | succ f ih =>
    intro p offA offR hA hR
    have h1 : alLookup offA p = none := alLookup_none_of_keys_lt _ _ hA
    have h2 : alLookup offR p = none := alLookup_none_of_keys_lt _ _ hR
    simp only [specTailGo, specEmit, h1, h2]
    simp only [List.nil_append, List.append_nil]
    exact ih (p+1) _ _
      (fun e he => lt_trans (hA e (alErase_subset _ _ _ he)) (by omega))
      (fun e he => lt_trans (hR e (alErase_subset _ _ _ he)) (by omega))

theorem specTailGo_fuel_add :
    ∀ (f d p : Nat) (offA offR : List (Nat × InsEntry)),
    (∀ e ∈ offA, e.1 < p + f) → (∀ e ∈ offR, e.1 < p + f) →
    specTailGo (f + d) p offA offR = specTailGo f p offA offR := by
  intro f
  induction f with
  | zero =>
    intro d p offA offR hA hR
    simp only [Nat.zero_add]
    rw [specTailGo_nil_of_keys_lt d p offA offR
      (fun e he => by have := hA e he; omega)
      (fun e he => by have := hR e he; omega)]
    rfl
  | succ f ih =>
    intro d p offA offR hA hR
    have hadd : f + 1 + d = (f + d) + 1 := by omega
    rw [hadd]
    simp only [specTailGo]
    rw [ih d (p+1) _ _
      (fun e he => by have := hA e (alErase_subset _ _ _ he); omega)
      (fun e he => by have := hR e (alErase_subset _ _ _ he); omega)]

theorem specTailGo_fuel_congr (f1 f2 p : Nat) (offA offR : List (Nat × InsEntry))
    (hA1 : ∀ e ∈ offA, e.1 < p + f1) (hR1 : ∀ e ∈ offR, e.1 < p + f1)
    (hA2 : ∀ e ∈ offA, e.1 < p + f2) (hR2 : ∀ e ∈ offR, e.1 < p + f2) :
    specTailGo f1 p offA offR = specTailGo f2 p offA offR := by
  rcases Nat.le_total f1 f2 with h | h
  · obtain ⟨d, rfl⟩ := Nat.exists_eq_add_of_le h
    exact (specTailGo_fuel_add f1 d p offA offR hA1 hR1).symm
  · obtain ⟨d, rfl⟩ := Nat.exists_eq_add_of_le h
    exact specTailGo_fuel_add f2 d p offA offR hA2 hR2

/-- C4: for every diff-classified block pair, the reconstructed tagged
instruction sequence built by `DiffBB.diff_ins` is exactly the sequence
described by the spec: walk the source block's positions in order, at
each position first emit any added entry recorded there with tag ADD,
then any removed entry recorded there with tag REMOVE, and otherwise
emit the original instruction with tag ORIG, continuing past the source
sequence's end while trailing add/remove entries remain. -/
theorem diff_ins_matches_spec_walk (bb1ins : List Nat)
    (add_ins remove_ins : List InsEntry) (tags0 : Nat → Option Nat) :
    (diff_ins bb1ins add_ins remove_ins tags0).ins =
      diffInsSpec bb1ins add_ins remove_ins := by
  unfold diff_ins diffInsSpec
  simp only
  obtain ⟨h1, h2, h3⟩ := diffInsMain_spec bb1ins 0
    { ins := [], offA := buildOff add_ins, offR := buildOff remove_ins,
      tags := tags0 }
  simp only at h1 h2 h3
  rw [diffInsTail_spec, h1, h2, h3]
  simp only [List.nil_append]
  set M := specWalkMain bb1ins 0 (buildOff add_ins) (buildOff remove_ins) with hM
  congr 1
  set st1 := diffInsMain bb1ins 0
    { ins := [], offA := buildOff add_ins, offR := buildOff remove_ins,
      tags := tags0 } with hst1
  set n := bb1ins.length with hn
  have hboundA : ∀ e ∈ M.2.1, e.1 ≤
      (if M.2.1.isEmpty then n else alMaxKey M.2.1) := by
    intro e he
    have hne : M.2.1.isEmpty = false := by
      cases hc : M.2.1 with
      | nil => simp [hc] at he
      | cons x xs => simp
    rw [hne]
    simp only [Bool.false_eq_true, if_false]
    exact mem_le_alMaxKey _ _ he
  have hboundR : ∀ e ∈ M.2.2,
      e.1 ≤ alMaxKey M.2.2 := fun e he => mem_le_alMaxKey _ _ he
  apply specTailGo_fuel_congr
  · intro e he
    have hb := hboundA e he
    by_cases hre : M.2.2.isEmpty = true
    · simp only [hre, if_true]
      omega
    · simp only [Bool.not_eq_true] at hre
      simp only [hre, Bool.false_eq_true, if_false]
      have hmx := le_max_left (if M.2.1.isEmpty then n else alMaxKey M.2.1)
        (alMaxKey M.2.2)
      omega
  · intro e he
    have hb := hboundR e he
    have hre : M.2.2.isEmpty = false := by
      cases hc : M.2.2 with
      | nil => simp [hc] at he
      | cons x xs => simp
    simp only [hre, Bool.false_eq_true, if_false]
    have hmx := le_max_right (if M.2.1.isEmpty then n else alMaxKey M.2.1)
      (alMaxKey M.2.2)
    omega
  · intro e he
    have hb := mem_le_alMaxKey _ _ he
    have := le_max_left (alMaxKey M.2.1) (alMaxKey M.2.2)
    omega
  · intro e he
    have hb := mem_le_alMaxKey _ _ he
    have := le_max_right (alMaxKey M.2.1) (alMaxKey M.2.2)
    omega

/-! ### Attribute-store lemmas for `diff_ins` (claim C2) -/

theorem setTag_isSome_preserve (st : Nat → Option Nat) (a t x : Nat)
    (h : (st x).isSome) : ((setTag st a t) x).isSome := by
  unfold setTag
  by_cases hx : x = a <;> simp [hx, h]

theorem diffInsStep_tags_frame (st : DiffInsState) (nb i id : Nat)
    (h : id ∉ ((diffInsStep st nb i).ins.map Prod.fst)) :
    (diffInsStep st nb i).tags id = st.tags id := by
  cases hA : alLookup st.offA nb <;> cases hR : alLookup st.offR nb <;>
    simp only [diffInsStep, hA, hR] at h ⊢ <;>
    simp only [List.map_append, List.map_cons, List.map_nil, List.mem_append,
      List.mem_cons, List.not_mem_nil, or_false, not_or] at h <;>
    simp [setTag, h]

theorem diffInsStep_ins_mono (st : DiffInsState) (nb i : Nat) (x : Nat × Nat)
    (h : x ∈ st.ins) : x ∈ (diffInsStep st nb i).ins := by
  rw [diffInsStep_ins]
  exact List.mem_append_left _ h

theorem diffInsStep_tags_some (st : DiffInsState) (nb i : Nat)
    (hpre : ∀ x ∈ st.ins.map Prod.fst, (st.tags x).isSome) :
    ∀ x ∈ (diffInsStep st nb i).ins.map Prod.fst,
      ((diffInsStep st nb i).tags x).isSome := by
  intro x hx
  cases hA : alLookup st.offA nb with
  | none =>
    cases hR : alLookup st.offR nb with
    | none =>
      simp only [diffInsStep, hA, hR, List.map_append, List.map_cons,
        List.map_nil, List.mem_append, List.mem_cons, List.not_mem_nil,
        or_false] at hx ⊢
      rcases hx with hx | hx
      · exact setTag_isSome_preserve _ _ _ _ (hpre x hx)
      · subst hx; simp [setTag]
    | some r =>
      simp only [diffInsStep, hA, hR, List.map_append, List.map_cons,
        List.map_nil, List.mem_append, List.mem_cons, List.not_mem_nil,
        or_false] at hx ⊢
      rcases hx with hx | hx
      · exact setTag_isSome_preserve _ _ _ _ (hpre x hx)
      · subst hx; simp [setTag]
  | some a =>
    cases hR : alLookup st.offR nb with
    | none =>
      simp only [diffInsStep, hA, hR, List.map_append, List.map_cons,
        List.map_nil, List.mem_append, List.mem_cons, List.not_mem_nil,
        or_false] at hx ⊢
      rcases hx with (hx | hx) | hx
      · exact setTag_isSome_preserve _ _ _ _
          (setTag_isSome_preserve _ _ _ _ (hpre x hx))
      · subst hx
        exact setTag_isSome_preserve _ _ _ _ (by simp [setTag])
      · subst hx; simp [setTag]
    | some r =>
      simp only [diffInsStep, hA, hR, List.map_append, List.map_cons,
        List.map_nil, List.mem_append, List.mem_cons, List.not_mem_nil,
        or_false] at hx ⊢
      rcases hx with (hx | hx) | hx
      · exact setTag_isSome_preserve _ _ _ _
          (setTag_isSome_preserve _ _ _ _ (hpre x hx))
      · subst hx
        exact setTag_isSome_preserve _ _ _ _ (by simp [setTag])
      · subst hx; simp [setTag]

theorem diffInsTailStep_tags_frame (st : DiffInsState) (nb id : Nat)
    (h : id ∉ ((diffInsTailStep st nb).ins.map Prod.fst)) :
    (diffInsTailStep st nb).tags id = st.tags id := by
  cases hA : alLookup st.offA nb <;> cases hR : alLookup st.offR nb <;>
    simp only [diffInsTailStep, hA, hR] at h ⊢ <;>
    simp only [List.map_append, List.map_cons, List.map_nil, List.mem_append,
      List.mem_cons, List.not_mem_nil, or_false, not_or] at h <;>
    simp [setTag, h]

theorem diffInsTailStep_ins_mono (st : DiffInsState) (nb : Nat) (x : Nat × Nat)
    (h : x ∈ st.ins) : x ∈ (diffInsTailStep st nb).ins := by
  rw [diffInsTailStep_ins]
  exact List.mem_append_left _ h

theorem diffInsTailStep_tags_some (st : DiffInsState) (nb : Nat)
    (hpre : ∀ x ∈ st.ins.map Prod.fst, (st.tags x).isSome) :
    ∀ x ∈ (diffInsTailStep st nb).ins.map Prod.fst,
      ((diffInsTailStep st nb).tags x).isSome := by
  intro x hx
  cases hA : alLookup st.offA nb with
  | none =>
    cases hR : alLookup st.offR nb with
    | none =>
      simp only [diffInsTailStep, hA, hR] at hx ⊢
      exact hpre x hx
    | some r =>
      simp only [diffInsTailStep, hA, hR, List.map_append, List.map_cons,
        List.map_nil, List.mem_append, List.mem_cons, List.not_mem_nil,
        or_false] at hx ⊢
      rcases hx with hx | hx
      · exact setTag_isSome_preserve _ _ _ _ (hpre x hx)
      · subst hx; simp [setTag]
  | some a =>
    cases hR : alLookup st.offR nb with
    | none =>
      simp only [diffInsTailStep, hA, hR, List.map_append, List.map_cons,
        List.map_nil, List.mem_append, List.mem_cons, List.not_mem_nil,
        or_false] at hx ⊢
      rcases hx with hx | hx
      · exact setTag_isSome_preserve _ _ _ _ (hpre x hx)
      · subst hx; simp [setTag]
    | some r =>
      simp only [diffInsTailStep, hA, hR, List.map_append, List.map_cons,
        List.map_nil, List.mem_append, List.mem_cons, List.not_mem_nil,
        or_false] at hx ⊢
      rcases hx with (hx | hx) | hx
      · exact setTag_isSome_preserve _ _ _ _
          (setTag_isSome_preserve _ _ _ _ (hpre x hx))
      · subst hx
        exact setTag_isSome_preserve _ _ _ _ (by simp [setTag])
      · subst hx; simp [setTag]

theorem diffInsMain_ins_mono : ∀ (l : List Nat) (p : Nat) (st : DiffInsState)
    (x : Nat × Nat), x ∈ st.ins → x ∈ (diffInsMain l p st).ins := by
  intro l
  induction l with
  | nil => intro p st x h; exact h
  | cons i rest ih =>
    intro p st x h
    exact ih (p+1) _ x (diffInsStep_ins_mono st p i x h)

theorem diffInsMain_tags_frame : ∀ (l : List Nat) (p : Nat) (st : DiffInsState)
    (id : Nat), id ∉ ((diffInsMain l p st).ins.map Prod.fst) →
    (diffInsMain l p st).tags id = st.tags id := by
  intro l
  induction l with
  | nil => intro p st id _; rfl
  | cons i rest ih =>
    intro p st id h
    have hstep : id ∉ ((diffInsStep st p i).ins.map Prod.fst) := by
      intro hmem
      obtain ⟨pr, hpr, hfst⟩ := List.mem_map.1 hmem
      exact h (List.mem_map.2
        ⟨pr, diffInsMain_ins_mono rest (p+1) _ pr hpr, hfst⟩)
    calc (diffInsMain (i :: rest) p st).tags id
        = (diffInsStep st p i).tags id := ih (p+1) _ id h
      _ = st.tags id := diffInsStep_tags_frame st p i id hstep

theorem diffInsMain_tags_some : ∀ (l : List Nat) (p : Nat) (st : DiffInsState),
    (∀ x ∈ st.ins.map Prod.fst, (st.tags x).isSome) →
    ∀ x ∈ (diffInsMain l p st).ins.map Prod.fst,
      ((diffInsMain l p st).tags x).isSome := by
  intro l
  induction l with
  | nil => intro p st hpre x hx; exact hpre x hx
  | cons i rest ih =>
    intro p st hpre x hx
    exact ih (p+1) _ (diffInsStep_tags_some st p i hpre) x hx

theorem diffInsTail_ins_mono : ∀ (fuel p : Nat) (st : DiffInsState)
    (x : Nat × Nat), x ∈ st.ins → x ∈ (diffInsTail fuel p st).ins := by
  intro fuel
  induction fuel with
  | zero => intro p st x h; exact h
  | succ f ih =>
    intro p st x h
    exact ih (p+1) _ x (diffInsTailStep_ins_mono st p x h)

theorem diffInsTail_tags_frame : ∀ (fuel p : Nat) (st : DiffInsState)
    (id : Nat), id ∉ ((diffInsTail fuel p st).ins.map Prod.fst) →
    (diffInsTail fuel p st).tags id = st.tags id := by
  intro fuel
  induction fuel with
  | zero => intro p st id _; rfl
  | succ f ih =>
    intro p st id h
    have hstep : id ∉ ((diffInsTailStep st p).ins.map Prod.fst) := by
      intro hmem
      obtain ⟨pr, hpr, hfst⟩ := List.mem_map.1 hmem
      exact h (List.mem_map.2
        ⟨pr, diffInsTail_ins_mono f (p+1) _ pr hpr, hfst⟩)
    calc (diffInsTail (f+1) p st).tags id
        = (diffInsTailStep st p).tags id := ih (p+1) _ id h
      _ = st.tags id := diffInsTailStep_tags_frame st p id hstep

theorem diffInsTail_tags_some : ∀ (fuel p : Nat) (st : DiffInsState),
    (∀ x ∈ st.ins.map Prod.fst, (st.tags x).isSome) →
    ∀ x ∈ (diffInsTail fuel p st).ins.map Prod.fst,
      ((diffInsTail fuel p st).tags x).isSome := by
  intro fuel
  induction fuel with
  | zero => intro p st hpre x hx; exact hpre x hx
  | succ f ih =>
    intro p st hpre x hx
    exact ih (p+1) _ (diffInsTailStep_tags_some st p hpre) x hx

/-- C2 counterexample: diffing a block whose single original instruction
(id 7) has no recorded add/remove entries makes `diff_ins` set the
`diff_tag` attribute on that original, externally-owned instruction
object (it carried no such attribute before the call), so the diff does
not leave the original objects unchanged. -/
theorem diff_ins_mutates_original :
    (diff_ins [7] [] [] (fun _ => none)).tags 7 ≠ none := by decide

/-- C2 amended: the diff operations do mutate the original objects —
`DiffBB.diff_ins` stores each tag by setting the `diff_tag` attribute
directly on the original instruction objects: after the call every
instruction object emitted into the reconstructed sequence carries a
`diff_tag` attribute, while the attributes of every object not emitted
are unchanged.  Only the block-level classification is carried in the
wrapper records. -/
theorem diff_ins_tags_on_originals (bb1ins : List Nat)
    (add_ins remove_ins : List InsEntry) (tags0 : Nat → Option Nat) :
    (∀ id, id ∉ ((diff_ins bb1ins add_ins remove_ins tags0).ins.map Prod.fst) →
      (diff_ins bb1ins add_ins remove_ins tags0).tags id = tags0 id) ∧
    (∀ id ∈ (diff_ins bb1ins add_ins remove_ins tags0).ins.map Prod.fst,
      ((diff_ins bb1ins add_ins remove_ins tags0).tags id).isSome) := by
  unfold diff_ins
  constructor
  · intro id h
    have h1 := diffInsTail_tags_frame _ _ _ id h
    rw [h1]
    have hmain : id ∉ ((diffInsMain bb1ins 0
        { ins := [], offA := buildOff add_ins, offR := buildOff remove_ins,
          tags := tags0 }).ins.map Prod.fst) := by
      intro hmem
      obtain ⟨pr, hpr, hfst⟩ := List.mem_map.1 hmem
      exact h (List.mem_map.2 ⟨pr, diffInsTail_ins_mono _ _ _ pr hpr, hfst⟩)
    exact diffInsMain_tags_frame bb1ins 0 _ id hmain
  · intro id h
    apply diffInsTail_tags_some
    · apply diffInsMain_tags_some
      intro x hx
      simp at hx
    · exact h

/-- Witness for the C2 amended theorem: instruction object 9 is not
emitted when diffing the one-instruction block `[5]`, so its attribute
is unchanged. -/
theorem diff_ins_tags_on_originals_witness :
    9 ∉ ((diff_ins [5] [] [] (fun _ => none)).ins.map Prod.fst) ∧
    (diff_ins [5] [] [] (fun _ => none)).tags 9 = none :=
  ⟨by decide, (diff_ins_tags_on_originals [5] [] [] (fun _ => none)).1 9 (by decide)⟩

/-- Witness for C8 at `X = [1]`, `Y = [2]`, `i = j = 1`: the tokens
diverge, the adjacent table counts are equal (so the left count is not
strictly smaller) and the theorem classifies the step as an insertion. -/
theorem getDiff_tie_prefers_insertion_witness :
    (0 < 1 ∧ (0:Nat) < 1 ∧ ([1] : List Nat).getD 0 0 ≠ ([2] : List Nat).getD 0 0) ∧
    (¬ tbl (LCS [1] [2]) 1 0 < tbl (LCS [1] [2]) 0 1 →
      getDiff (LCS [1] [2]) [1] [2] 1 1 [] [] =
        ((getDiff (LCS [1] [2]) [1] [2] 1 0 [] []).1 ++ [(0, ([2] : List Nat).getD 0 0)],
         (getDiff (LCS [1] [2]) [1] [2] 1 0 [] []).2)) := by
  refine ⟨by decide, ?_⟩
  exact (getDiff_tie_prefers_insertion (LCS [1] [2]) [1] [2] 1 1 [] []
    (by decide) (by decide) (by decide)).1

/-! ### `Method.diff`: matched pairs (claims C1, C6) -/

theorem alSet_keys {κ α : Type} [DecidableEq κ] :
    ∀ (m : List (κ × α)) (k : κ) (v : α),
    (alSet m k v).map Prod.fst =
      if k ∈ m.map Prod.fst then m.map Prod.fst else m.map Prod.fst ++ [k] := by
  intro m
  induction m with
  | nil => intro k v; simp [alSet]
  | cons e rest ih =>
    intro k v
    obtain ⟨k2, v2⟩ := e
    by_cases hk : k2 = k
    · subst hk
      simp [alSet]
    · simp only [alSet, if_neg hk, List.map_cons, ih, List.mem_cons]
      by_cases hm : k ∈ rest.map Prod.fst
      · simp [hm, Ne.symm hk]
      · simp [hm, Ne.symm hk]

theorem alSet_keys_nodup {κ α : Type} [DecidableEq κ]
    (m : List (κ × α)) (k : κ) (v : α) (h : (m.map Prod.fst).Nodup) :
    ((alSet m k v).map Prod.fst).Nodup := by
  rw [alSet_keys]
  by_cases hm : k ∈ m.map Prod.fst
  · simp [hm, h]
  · simp only [hm, if_false]
    rw [List.nodup_append]
    refine ⟨h, List.nodup_singleton k, ?_⟩
    intro a ha
    simp only [List.mem_singleton]
    intro hak
    subst hak
    exact hm ha

theorem foldl_alSet_nodup {κ α β : Type} [DecidableEq κ]
    (f : β → κ) (g : β → α) :
    ∀ (l : List β) (m : List (κ × α)), (m.map Prod.fst).Nodup →
    ((l.foldl (fun acc t => alSet acc (f t) (g t)) m).map Prod.fst).Nodup := by
  intro l
  induction l with
  | nil => intro m h; exact h
  | cons t rest ih =>
    intro m h
    exact ih (alSet m (f t) (g t)) (alSet_keys_nodup m (f t) (g t) h)

/-- C1 counterexample: with two first-method blocks `a1`, `a2` and one
candidate holding a single non-hash-matching block `b`, `Method.diff`
completes and matches both `a1` and `b` and `a2` and `b` (both appear in
`dbb`), so the set of matched pairs is not a partial bijection: block
`b` of the second method is matched to two blocks of the first. -/
theorem method_diff_pairs_not_bijective :
    (methodDiff cexSim [cexCand] cexBlocks).map matchedPairs =
      .ok [("a1", "b"), ("a2", "b")] ∧
    ¬ bijectivePairs [("a1", "b"), ("a2", "b")] := by
  constructor
  · decide
  · decide

/-- C1 amended: `Method.diff`'s similar matches form a partial function
on the first method's side — `dbb` holds at most one matched pair per
first-method block (its keys are pairwise distinct) — but the matched
pairs need not be injective on the second method's side, so the full
relation is not a partial bijection. -/
theorem method_diff_dbb_at_most_one (fsim : Elem1 → Elem2 → ℚ)
    (sortH : List Cand) (bb1 : List Elem1) (r : MethodDiffResult)
    (h : methodDiff fsim sortH bb1 = .ok r) :
    (r.dbb.map Prod.fst).Nodup := by
  unfold methodDiff at h
  by_cases hs : sortH.isEmpty
  · rw [if_pos hs] at h
    simp only [Except.ok.injEq] at h
    subst h
    simp
  · rw [if_neg hs] at h
    cases hm : diffMainLoop fsim sortH bb1 [] [] [] [] with
    | error e => rw [hm] at h; simp at h
    | ok t =>
      rw [hm] at h
      obtain ⟨diffList, assoc, direct, ident⟩ := t
      simp only [Except.ok.injEq] at h
      subst h
      simp only
      exact foldl_alSet_nodup
        (fun t : Elem1 × Elem2 × ℚ => t.1.basic_block.name)
        (fun t : Elem1 × Elem2 × ℚ =>
          ({ bb1 := t.1.basic_block, bb2 := t.2.1.basic_block,
             score := t.2.2 } : DiffBBRec))
        diffList [] (by simp)

/-- Witness for the C1 amended theorem at the concrete double-match
input: the two `dbb` keys `a1`, `a2` are distinct. -/
theorem method_diff_dbb_at_most_one_witness :
    methodDiff cexSim [cexCand] cexBlocks =
      .ok { dbb := [("a1", ⟨⟨"a1", 0⟩, ⟨"b", 0⟩, 1⟩),
                    ("a2", ⟨⟨"a2", 4⟩, ⟨"b", 0⟩, 1⟩)],
            nbb := [], identPairs := [] } ∧
    (({ dbb := [("a1", ⟨⟨"a1", 0⟩, ⟨"b", 0⟩, 1⟩),
                ("a2", ⟨⟨"a2", 4⟩, ⟨"b", 0⟩, 1⟩)],
        nbb := [], identPairs := [] } : MethodDiffResult).dbb.map Prod.fst).Nodup :=
  ⟨by decide, method_diff_dbb_at_most_one cexSim [cexCand] cexBlocks _ (by decide)⟩

/-- C6 counterexample: a method with zero basic blocks whose candidate
list is non-empty runs without error but classifies every candidate
block as new — the new-block map `nbb` is not empty. -/
theorem method_diff_zero_blocks_new_nonempty :
    (methodDiff cexSim [cexCand] []).map (fun r => r.nbb.isEmpty) =
      .ok false := by
  decide

/-- C6 amended: a method with zero basic blocks whose candidate list
`sort_h` is empty yields an empty diff map and an empty new-block map
without raising any error (with candidates present the new-block map
collects all their blocks instead). -/
theorem method_diff_zero_blocks_no_cands (fsim : Elem1 → Elem2 → ℚ)
    (sortH : List Cand) (bb1 : List Elem1)
    (hb : bb1 = []) (hs : sortH = []) :
    methodDiff fsim sortH bb1 = .ok { dbb := [], nbb := [], identPairs := [] } := by
  subst hb
  subst hs
  rfl

/-- Witness for the C6 amended theorem. -/
theorem method_diff_zero_blocks_no_cands_witness :
    ([] : List Elem1) = [] ∧ ([] : List Cand) = [] ∧
    methodDiff cexSim [] [] = .ok { dbb := [], nbb := [], identPairs := [] } :=
  ⟨rfl, rfl, method_diff_zero_blocks_no_cands cexSim [] [] rfl rfl⟩

/-! ### `Method.create_bbs` (claim C7) -/

/-- C7: after `Method.create_bbs`, the final merged block list is sorted
in non-decreasing order of block start offset, and every element carries
exactly one `bb_tag`, which is ORIG exactly for original blocks not in
`dbb`, DIFF for the `DiffBB` wrappers of reclassified blocks, and NEW
for the `NewBB` wrappers. -/
theorem create_bbs_sorted_tagged (origBlocks : List BBlk)
    (dbb : List (String × DiffBBRec)) (nbb : List (BBlk × BBlk)) :
    List.Pairwise (fun a b : TaggedBB × Nat => tbStart a.1 ≤ tbStart b.1)
      (create_bbs origBlocks dbb nbb) ∧
    ∀ x ∈ create_bbs origBlocks dbb nbb,
      (x.2 = BB_TAG_ORIG ∧ ∃ b ∈ origBlocks, x.1 = TaggedBB.orig b ∧
        alLookup dbb b.name = none) ∨
      (x.2 = BB_TAG_DIFF ∧ ∃ b ∈ origBlocks, ∃ d, alLookup dbb b.name = some d ∧
        x.1 = TaggedBB.diffb d) ∨
      (x.2 = BB_TAG_NEW ∧ ∃ p ∈ nbb, x.1 = TaggedBB.newb p.2) := by
  constructor
  · unfold create_bbs
    haveI : IsTotal (TaggedBB × Nat) (fun a b => tbStart a.1 ≤ tbStart b.1) :=
      ⟨fun a b => le_total _ _⟩
    haveI : IsTrans (TaggedBB × Nat) (fun a b => tbStart a.1 ≤ tbStart b.1) :=
      ⟨fun a b c hab hbc => le_trans hab hbc⟩
    exact List.sorted_insertionSort _ _
  · intro x hx
    unfold create_bbs at hx
    have hmem := (List.perm_insertionSort
      (fun a b : TaggedBB × Nat => tbStart a.1 ≤ tbStart b.1) _).mem_iff.1 hx
    rcases List.mem_append.1 hmem with hmem | hmem
    · obtain ⟨b, hb, hxb⟩ := List.mem_map.1 hmem
      cases hl : alLookup dbb b.name with
      | some d =>
        rw [hl] at hxb
        right; left
        refine ⟨?_, b, hb, d, hl, ?_⟩ <;> rw [← hxb]
      | none =>
        rw [hl] at hxb
        left
        refine ⟨?_, b, hb, ?_, hl⟩ <;> rw [← hxb]
    · obtain ⟨p, hp, hxp⟩ := List.mem_map.1 hmem
      right; right
      refine ⟨?_, p, hp, ?_⟩ <;> rw [← hxp]

/-- Witness for C7 at a one-block method with no reclassification. -/
theorem create_bbs_sorted_tagged_witness :
    ((TaggedBB.orig ⟨"x", 0⟩, BB_TAG_ORIG) ∈ create_bbs [⟨"x", 0⟩] [] []) ∧
    (((TaggedBB.orig ⟨"x", 0⟩, BB_TAG_ORIG).2 = BB_TAG_ORIG ∧
      ∃ b ∈ [(⟨"x", 0⟩ : BBlk)], (TaggedBB.orig ⟨"x", 0⟩, BB_TAG_ORIG).1 =
        TaggedBB.orig b ∧ alLookup ([] : List (String × DiffBBRec)) b.name = none) ∨
    ((TaggedBB.orig ⟨"x", 0⟩, BB_TAG_ORIG).2 = BB_TAG_DIFF ∧
      ∃ b ∈ [(⟨"x", 0⟩ : BBlk)], ∃ d,
        alLookup ([] : List (String × DiffBBRec)) b.name = some d ∧
        (TaggedBB.orig ⟨"x", 0⟩, BB_TAG_ORIG).1 = TaggedBB.diffb d) ∨
    ((TaggedBB.orig ⟨"x", 0⟩, BB_TAG_ORIG).2 = BB_TAG_NEW ∧
      ∃ p ∈ ([] : List (BBlk × BBlk)), (TaggedBB.orig ⟨"x", 0⟩, BB_TAG_ORIG).1 =
        TaggedBB.newb p.2)) :=
  ⟨by decide,
   (create_bbs_sorted_tagged [⟨"x", 0⟩] [] []).2 _ (by decide)⟩

/-! ### `DBFormat.__init__` error handling (claim C5) -/

/-- C5 counterexample: a signature file whose contents are not valid
structured data makes the constructor raise — `json.load` raises
`JSONDecodeError` (a `ValueError`), which the `except IOError` clause
does not catch — instead of recovering with an empty corpus. -/
theorem dbformat_init_malformed_raises :
    DBFormat_init .parseError = .error .jsonDecodeError := rfl

/-- C5 amended: a missing/unreadable signature file (`IOError`) is
recovered locally by starting from an empty corpus, but a file whose
contents are not valid structured data is not recovered: the JSON
decoding error propagates out of the constructor. -/
theorem dbformat_init_error_handling :
    DBFormat_init .ioError = .ok { D := [], H := [], N := [] } ∧
    DBFormat_init .parseError = .error .jsonDecodeError :=
  ⟨rfl, rfl⟩

/-! ### `Compress.by_name` (claim C10) -/

/-- C10 counterexample: neither `"by_name"` nor `"__doc__"` is one of
the seven member names, yet `Compress.by_name` raises `ValueError` for
neither — `hasattr` succeeds on any class attribute (the `by_name`
method defined in the class body, the inherited dunders and
`int`/`IntEnum` methods) and the attribute itself is returned.
The attribute-set parameter is instantiated with the representative
`compressOtherAttrs`; both names belong to the real attribute set of
the class. -/
theorem by_name_not_valueerror_on_attr :
    by_name compressOtherAttrs "by_name" = .ok (.attr "by_name") ∧
    by_name compressOtherAttrs "__doc__" = .ok (.attr "__doc__") ∧
    "by_name" ∉ compressMemberNames ∧
    "__doc__" ∉ compressMemberNames :=
  ⟨rfl, rfl, by decide, by decide⟩

/-- C10 amended: for any set `others` of non-member attribute names of
the `Compress` class, `Compress.by_name(name)` returns the enum member
whose name equals the given string for each of the seven member names,
raises `ValueError` exactly for strings that are attributes neither as
members nor otherwise, and returns the attribute itself (without
raising) for every non-member attribute name — `by_name` itself, the
dunders, and the inherited `IntEnum`/`int` attributes among them. -/
theorem by_name_spec (others : List String) (s : String) :
    (∀ c, memberOfName s = some c → by_name others s = .ok (.member c)) ∧
    (memberOfName s = none → others.contains s = false →
      by_name others s = .error .valueError) ∧
    (memberOfName s = none → others.contains s = true →
      by_name others s = .ok (.attr s)) := by
  refine ⟨?_, ?_, ?_⟩
  · intro c hc
    unfold by_name hasattrCompress getattrCompress
    rw [hc]
    simp
  · intro hm hc
    unfold by_name hasattrCompress
    rw [hm, hc]
    simp
  · intro hm hc
    unfold by_name hasattrCompress getattrCompress
    rw [hm, hc]
    simp

/-- Witness for C10 amended at `s = "ZLIB"` with the representative
attribute set. -/
theorem by_name_spec_witness :
    memberOfName "ZLIB" = some Compress.ZLIB ∧
    by_name compressOtherAttrs "ZLIB" = .ok (.member Compress.ZLIB) :=
  ⟨by decide,
   (by_name_spec compressOtherAttrs "ZLIB").1 Compress.ZLIB (by decide)⟩

/-! ### `DBFormat.add_element` lemmas (claim C9) -/

theorem alLookup_alSet_self {κ α : Type} [DecidableEq κ]
    (m : List (κ × α)) (k : κ) (v : α) :
    alLookup (alSet m k v) k = some v := by
  induction m with
  | nil => simp [alSet, alLookup]
  | cons e rest ih =>
    obtain ⟨k2, v2⟩ := e
    by_cases hk : k2 = k
    · subst hk; simp [alSet, alLookup]
    · simp [alSet, alLookup, hk, ih]

theorem alLookup_alSet_ne {κ α : Type} [DecidableEq κ]
    (m : List (κ × α)) (k k2 : κ) (v : α) (h : k2 ≠ k) :
    alLookup (alSet m k v) k2 = alLookup m k2 := by
  induction m with
  | nil => simp [alSet, alLookup, Ne.symm h]
  | cons e rest ih =>
    obtain ⟨k3, v3⟩ := e
    by_cases hk : k3 = k
    · subst hk
      simp [alSet, alLookup, Ne.symm h]
    · simp [alSet, alLookup, hk, ih]

theorem mem_alSet {κ α : Type} [DecidableEq κ]
    (m : List (κ × α)) (k : κ) (v : α) (x : κ × α)
    (h : x ∈ alSet m k v) : x ∈ m ∨ x = (k, v) := by
  induction m with
  | nil => simp [alSet] at h; simp [h]
  | cons e rest ih =>
    obtain ⟨k2, v2⟩ := e
    by_cases hk : k2 = k
    · subst hk
      simp only [alSet, if_pos rfl] at h
      rcases List.mem_cons.1 h with h | h
      · exact Or.inr h
      · exact Or.inl (List.mem_cons_of_mem _ h)
    · simp only [alSet, if_neg hk] at h
      rcases List.mem_cons.1 h with h | h
      · exact Or.inl (by simp [h])
      · rcases ih h with h | h
        · exact Or.inl (List.mem_cons_of_mem _ h)
        · exact Or.inr h

theorem classSum_set_SIZE (sub : DBSub) (v : DBEntry) :
    classSum (alSet sub "SIZE" v) = classSum sub := by
  induction sub with
  | nil => simp [alSet, classSum]
  | cons e rest ih =>
    obtain ⟨k2, v2⟩ := e
    by_cases hk : k2 = "SIZE"
    · subst hk
      simp [alSet, classSum]
    · simp only [alSet, if_neg hk, classSum, List.map_cons, List.sum_cons]
        at ih ⊢
      omega

theorem classSum_set_absent (sub : DBSub) (k : String) (e : DBEntry)
    (hk : alLookup sub k = none) (hne : k ≠ "SIZE") :
    classSum (alSet sub k e) = classSum sub + entrySizes e := by
  induction sub with
  | nil =>
    simp [alSet, classSum, hne]
  | cons p rest ih =>
    obtain ⟨k2, v2⟩ := p
    by_cases hk2 : k2 = k
    · subst hk2; simp [alLookup] at hk
    · simp only [alLookup, if_neg hk2] at hk
      simp only [alSet, if_neg hk2, classSum, List.map_cons, List.sum_cons]
        at ih ⊢
      have := ih hk
      omega

theorem classSum_set_present (sub : DBSub) (k : String) (e0 e : DBEntry)
    (hk : alLookup sub k = some e0) (hne : k ≠ "SIZE") :
    classSum (alSet sub k e) = classSum sub - entrySizes e0 + entrySizes e := by
  induction sub with
  | nil => simp [alLookup] at hk
  | cons p rest ih =>
    obtain ⟨k2, v2⟩ := p
    by_cases hk2 : k2 = k
    · subst hk2
      simp only [alLookup, if_true] at hk
      have hv2 : v2 = e0 := by
        simpa using hk
      have halset : alSet ((k2, v2) :: rest) k2 e = (k2, e) :: rest := by
        simp [alSet]
      rw [halset]
      simp only [classSum, List.map_cons, List.sum_cons, if_neg hne]
      rw [hv2]
      omega
    · simp only [alLookup, if_neg hk2] at hk
      simp only [alSet, if_neg hk2, classSum, List.map_cons, List.sum_cons]
        at ih ⊢
      have := ih hk
      omega

theorem entrySizes_set_absent (m : List (String × Int)) (elem : String)
    (size : Int) (h : elem ∉ m.map Prod.fst) :
    entrySizes (.dict (alSet m elem size)) = entrySizes (.dict m) + size := by
  induction m with
  | nil => simp [alSet, entrySizes]
  | cons p rest ih =>
    obtain ⟨k2, v2⟩ := p
    simp only [List.map_cons, List.mem_cons, not_or] at h
    have hk2 : k2 ≠ elem := fun he => h.1 he.symm
    simp only [alSet, if_neg hk2, entrySizes, List.map_cons, List.sum_cons]
      at ih ⊢
    have := ih h.2
    omega

/-! ### Well-formedness preservation for `add_element` -/

theorem famWF_set (fam : DBFam) (sname : String) (sub2 : DBSub)
    (h : famWF fam) (hs : subWF sub2) : famWF (alSet fam sname sub2) := by
  intro s hmem
  rcases mem_alSet _ _ _ _ hmem with hmem | hmem
  · exact h s hmem
  · rw [hmem]
    exact hs

theorem dbWF_set (D : DBCorpus) (name : String) (fam2 : DBFam)
    (h : dbWF D) (hf : famWF fam2) : dbWF (alSet D name fam2) := by
  intro f hmem
  rcases mem_alSet _ _ _ _ hmem with hmem | hmem
  · exact h f hmem
  · rw [hmem]
    exact hf

theorem famWF_of_lookup (D : DBCorpus) (name : String) (fam : DBFam)
    (h : dbWF D) (hn : alLookup D name = some fam) : famWF fam :=
  h (name, fam) (alLookup_some_mem _ _ _ hn)

theorem subWF_of_lookup (fam : DBFam) (sname : String) (sub : DBSub)
    (h : famWF fam) (hs : alLookup fam sname = some sub) : subWF sub :=
  h (sname, sub) (alLookup_some_mem _ _ _ hs)

theorem subWF_fresh (sclass : String) (hcl : sclass ≠ "SIZE") :
    subWF (alSet (alSet ([] : DBSub) "SIZE" (.int 0)) sclass (.dict [])) := by
  have heq : alSet (alSet ([] : DBSub) "SIZE" (.int 0)) sclass (.dict []) =
      [("SIZE", .int 0), (sclass, .dict [])] := by
    simp [alSet, Ne.symm hcl]
  rw [heq]
  constructor
  · simp [alLookup, classSum, entrySizes, hcl]
  · intro p hp hne
    rcases List.mem_cons.1 hp with hp | hp
    · rw [hp] at hne
      simp at hne
    · rcases List.mem_cons.1 hp with hp | hp
      · exact ⟨[], by rw [hp]⟩
      · simp at hp

theorem subWF_new_class (sub : DBSub) (sclass : String) (h : subWF sub)
    (hl : alLookup sub sclass = none) (hcl : sclass ≠ "SIZE") :
    subWF (alSet sub sclass (.dict [])) := by
  constructor
  · rw [alLookup_alSet_ne _ _ _ _ (Ne.symm hcl)]
    rw [classSum_set_absent sub sclass _ hl hcl]
    rw [h.1]
    simp [entrySizes]
  · intro p hp hne
    rcases mem_alSet _ _ _ _ hp with hp | hp
    · exact h.2 p hp hne
    · exact ⟨[], by rw [hp]⟩

theorem subWF_update_try (sub : DBSub) (sclass elem : String) (size : Int)
    (m : List (String × Int)) (h : subWF sub) (hcl : sclass ≠ "SIZE")
    (hl : alLookup sub sclass = some (.dict m)) (he : elem ∉ m.map Prod.fst) :
    subWF (alSet (alSet sub sclass (.dict (alSet m elem size))) "SIZE"
      (.int (classSum sub + size))) := by
  have hcs : classSum (alSet (alSet sub sclass (.dict (alSet m elem size)))
      "SIZE" (.int (classSum sub + size))) = classSum sub + size := by
    rw [classSum_set_SIZE]
    rw [classSum_set_present sub sclass (.dict m) _ hl hcl]
    rw [entrySizes_set_absent m elem size he]
    omega
  constructor
  · rw [alLookup_alSet_self, hcs]
  · intro p hp hne
    rcases mem_alSet _ _ _ _ hp with hp | hp
    · rcases mem_alSet _ _ _ _ hp with hp | hp
      · exact h.2 p hp hne
      · exact ⟨alSet m elem size, by rw [hp]⟩
    · rw [hp] at hne
      simp at hne

theorem subWF_update_finish (sub : DBSub) (sclass elem : String) (size : Int)
    (m : List (String × Int)) (h : subWF sub) (hcl : sclass ≠ "SIZE")
    (hl : alLookup sub sclass = some (.dict m)) (he : elem ∉ m.map Prod.fst) :
    subWF (alSet (alSet sub "SIZE" (.int (classSum sub + size))) sclass
      (.dict (alSet m elem size))) := by
  have hl2 : alLookup (alSet sub "SIZE" (.int (classSum sub + size))) sclass =
      some (.dict m) := by
    rw [alLookup_alSet_ne _ _ _ _ hcl]
    exact hl
  have hcs : classSum (alSet (alSet sub "SIZE" (.int (classSum sub + size)))
      sclass (.dict (alSet m elem size))) = classSum sub + size := by
    rw [classSum_set_present _ sclass (.dict m) _ hl2 hcl]
    rw [classSum_set_SIZE]
    rw [entrySizes_set_absent m elem size he]
    omega
  constructor
  · rw [alLookup_alSet_ne _ _ _ _ (Ne.symm hcl), alLookup_alSet_self, hcs]
  · intro p hp hne
    rcases mem_alSet _ _ _ _ hp with hp | hp
    · rcases mem_alSet _ _ _ _ hp with hp | hp
      · exact h.2 p hp hne
      · rw [hp] at hne
        simp at hne
    · exact ⟨alSet m elem size, by rw [hp]⟩

theorem finishAdd_ok (D : DBCorpus) (name sname sclass : String) (size : Int)
    (elem : String) (fam : DBFam) (sub : DBSub) (m : List (String × Int))
    (hD : dbWF D) (hn : alLookup D name = some fam)
    (hs : alLookup fam sname = some sub) (hfam : famWF fam) (hsub : subWF sub)
    (hcl : sclass ≠ "SIZE") (hc : alLookup sub sclass = some (.dict m))
    (he : elem ∉ m.map Prod.fst) :
    ∃ D2, finishAdd D name sname sclass size elem = (D2, .ok) ∧ dbWF D2 := by
  have hlu : alLookup (alSet sub "SIZE" (.int (classSum sub + size))) sclass =
      some (.dict m) := by
    rw [alLookup_alSet_ne _ _ _ _ hcl]
    exact hc
  unfold finishAdd
  simp only [hn, hs, hsub.1, hlu]
  refine ⟨_, rfl, ?_⟩
  exact dbWF_set _ _ _ hD (famWF_set _ _ _ hfam
    (subWF_update_finish sub sclass elem size m hsub hcl hc he))

theorem add_element_wf (D : DBCorpus) (name sname sclass : String)
    (size : Int) (elem : String) (hcl : sclass ≠ "SIZE") (hD : dbWF D) :
    ∃ D2, add_element D name sname sclass size elem = .ok D2 ∧ dbWF D2 := by
  cases hn : alLookup D name with
  | none =>
    have hsub1 := subWF_fresh sclass hcl
    have hfam1 : famWF (alSet ([] : DBFam) sname
        (alSet (alSet ([] : DBSub) "SIZE" (.int 0)) sclass (.dict []))) :=
      famWF_set _ _ _ (fun s hs => by simp at hs) hsub1
    have hD1 : dbWF (alSet D name (alSet ([] : DBFam) sname
        (alSet (alSet ([] : DBSub) "SIZE" (.int 0)) sclass (.dict [])))) :=
      dbWF_set _ _ _ hD hfam1
    obtain ⟨D2, hfin, hwf2⟩ := finishAdd_ok _ name sname sclass size elem _ _ []
      hD1 (alLookup_alSet_self _ _ _) (alLookup_alSet_self _ _ _) hfam1 hsub1
      hcl (alLookup_alSet_self _ _ _) (by simp)
    refine ⟨D2, ?_, hwf2⟩
    unfold add_element tryAdd exceptAdd
    simp only [hn, hfin]
  | some fam =>
    have hfam := famWF_of_lookup D name fam hD hn
    cases hs : alLookup fam sname with
    | none =>
      have hsub1 := subWF_fresh sclass hcl
      have hfam1 : famWF (alSet fam sname
          (alSet (alSet ([] : DBSub) "SIZE" (.int 0)) sclass (.dict []))) :=
        famWF_set _ _ _ hfam hsub1
      have hD1 : dbWF (alSet D name (alSet fam sname
          (alSet (alSet ([] : DBSub) "SIZE" (.int 0)) sclass (.dict [])))) :=
        dbWF_set _ _ _ hD hfam1
      obtain ⟨D2, hfin, hwf2⟩ := finishAdd_ok _ name sname sclass size elem _ _
        [] hD1 (alLookup_alSet_self _ _ _) (alLookup_alSet_self _ _ _) hfam1
        hsub1 hcl (alLookup_alSet_self _ _ _) (by simp)
      refine ⟨D2, ?_, hwf2⟩
      unfold add_element tryAdd exceptAdd
      simp only [hn, hs, hfin]
    | some sub =>
      have hsub := subWF_of_lookup fam sname sub hfam hs
      cases hc : alLookup sub sclass with
      | none =>
        have hsub1 := subWF_new_class sub sclass hsub hc hcl
        have hfam1 : famWF (alSet fam sname (alSet sub sclass (.dict []))) :=
          famWF_set _ _ _ hfam hsub1
        have hD1 : dbWF (alSet D name
            (alSet fam sname (alSet sub sclass (.dict [])))) :=
          dbWF_set _ _ _ hD hfam1
        obtain ⟨D2, hfin, hwf2⟩ := finishAdd_ok _ name sname sclass size elem
          _ _ [] hD1 (alLookup_alSet_self _ _ _) (alLookup_alSet_self _ _ _)
          hfam1 hsub1 hcl (alLookup_alSet_self _ _ _) (by simp)
        refine ⟨D2, ?_, hwf2⟩
        unfold add_element tryAdd exceptAdd
        simp only [hn, hs, hc, hfin]
      | some entry =>
        cases entry with
        | int n =>
          obtain ⟨m, hm⟩ := hsub.2 (sclass, .int n)
            (alLookup_some_mem _ _ _ hc) hcl
          simp at hm
        | dict m =>
          by_cases hel : (m.map Prod.fst).contains elem = true
          · refine ⟨D, ?_, hD⟩
            unfold add_element tryAdd
            simp only [hn, hs, hc, hel, if_true]
          · have he : elem ∉ m.map Prod.fst := by
              simpa using hel
            have helF : (m.map Prod.fst).contains elem = false := by
              simpa using hel
            have hlu2 : alLookup (alSet sub sclass (.dict (alSet m elem size)))
                "SIZE" = some (.int (classSum sub)) := by
              rw [alLookup_alSet_ne _ _ _ _ (Ne.symm hcl)]
              exact hsub.1
            refine ⟨alSet D name (alSet fam sname
              (alSet (alSet sub sclass (DBEntry.dict (alSet m elem size)))
                "SIZE" (DBEntry.int (classSum sub + size)))), ?_, ?_⟩
            · unfold add_element tryAdd
              simp only [hn, hs, hc, helF, hlu2, Bool.false_eq_true, if_false]
            · exact dbWF_set _ _ _ hD (famWF_set _ _ _ hfam
                (subWF_update_try sub sclass elem size m hsub hcl hc he))

theorem add_element_noop (D : DBCorpus) (name sname sclass : String)
    (size : Int) (elem : String) (fam : DBFam) (sub : DBSub)
    (m : List (String × Int)) (hn : alLookup D name = some fam)
    (hs : alLookup fam sname = some sub)
    (hc : alLookup sub sclass = some (.dict m)) (he : elem ∈ m.map Prod.fst) :
    add_element D name sname sclass size elem = .ok D := by
  have hel : (m.map Prod.fst).contains elem = true := by
    simpa using he
  unfold add_element tryAdd
  simp only [hn, hs, hc, hel, if_true]

theorem runAddsFrom_wf : ∀ (calls : List AddCall) (D : DBCorpus),
    dbWF D → (∀ c ∈ calls, c.sclass ≠ "SIZE") →
    ∃ D2, runAddsFrom D calls = .ok D2 ∧ dbWF D2 := by
  intro calls
  induction calls with
  | nil => intro D hD _; exact ⟨D, rfl, hD⟩
  | cons c rest ih =>
    intro D hD hc
    obtain ⟨D1, h1, hw1⟩ := add_element_wf D c.name c.sname c.sclass c.size
      c.elem (hc c (List.mem_cons_self c rest)) hD
    obtain ⟨D2, h2, hw2⟩ := ih D1 hw1
      (fun x hx => hc x (List.mem_cons_of_mem c hx))
    refine ⟨D2, ?_, hw2⟩
    unfold runAddsFrom
    simp only [h1, h2]

/-- C9: for every sequence of `DBFormat.add_element` calls starting from
an empty corpus (with element-class names, i.e. not the reserved
`"SIZE"` key), no call raises, and afterwards every family's every
sub-category stores under `"SIZE"` exactly the sum of the element sizes
recorded under all its element classes; moreover adding an element that
is already present in its element class leaves the corpus (mapping and
`"SIZE"` value) entirely unchanged. -/
theorem add_element_size_invariant (calls : List AddCall)
    (hc : ∀ c ∈ calls, c.sclass ≠ "SIZE") :
    ∃ D, runAdds calls = .ok D ∧
      (∀ f ∈ D, ∀ s ∈ f.2, alLookup s.2 "SIZE" = some (.int (classSum s.2))) ∧
      (∀ name sname sclass size elem fam sub m,
        alLookup D name = some fam → alLookup fam sname = some sub →
        alLookup sub sclass = some (DBEntry.dict m) → elem ∈ m.map Prod.fst →
        add_element D name sname sclass size elem = .ok D) := by
  obtain ⟨D, h1, h2⟩ := runAddsFrom_wf calls [] (fun f hf => by simp at hf) hc
  refine ⟨D, h1, ?_, ?_⟩
  · intro f hf s hs
    exact ((h2 f hf) s hs).1
  · intro name sname sclass size elem fam sub m hn hs hcc he
    exact add_element_noop D name sname sclass size elem fam sub m hn hs hcc he

/-- Witness for C9: adding element `e` (size 3) twice under family `f`,
sub-category `s`, class `c`. -/
theorem add_element_size_invariant_witness :
    (∀ c ∈ [AddCall.mk "f" "s" "c" 3 "e", AddCall.mk "f" "s" "c" 3 "e"],
      c.sclass ≠ "SIZE") ∧
    (∃ D, runAdds [AddCall.mk "f" "s" "c" 3 "e", AddCall.mk "f" "s" "c" 3 "e"] =
        .ok D ∧
      (∀ f ∈ D, ∀ s ∈ f.2, alLookup s.2 "SIZE" = some (.int (classSum s.2))) ∧
      (∀ name sname sclass size elem fam sub m,
        alLookup D name = some fam → alLookup fam sname = some sub →
        alLookup sub sclass = some (DBEntry.dict m) → elem ∈ m.map Prod.fst →
        add_element D name sname sclass size elem = .ok D)) :=
  ⟨by decide,
   add_element_size_invariant
     [AddCall.mk "f" "s" "c" 3 "e", AddCall.mk "f" "s" "c" 3 "e"] (by decide)⟩

end Elsim
